import Mathlib

/-!
# xsh: a shallow embedding of `main.c`

C strings are lists of characters (the bytes before the terminating NUL).
The environment store, the `$NAME` expander, the `strtok`-driven parser and
the descriptor wiring of the pipeline executor are transcribed from
`main.c`; the theorems at the end settle the claims C1..C10.
-/

namespace Xsh

/-! ## Data model -/

/-- The byte that terminates a C string. -/
def NUL : Char := Char.ofNat 0

/-- A C string: the characters that precede the terminating NUL. -/
abbrev CStr := List Char

abbrev MAX_COMMAND_LENGTH : Nat := 1024
abbrev MAX_ARGS : Nat := 64
abbrev MAX_ENV_VARS : Nat := 100
abbrev MAX_VAR_NAME : Nat := 64
abbrev MAX_VAR_VALUE : Nat := 256
abbrev MAX_COMMANDS : Nat := 10

/-- An `EnvVar`: the two fixed-size character arrays, read as C strings. -/
structure EnvVar where
  name : CStr
  value : CStr
deriving DecidableEq, Repr

/-- The global table: `env_vars[0 .. env_var_count-1]`, so that
`env_var_count` is the length of the list. -/
abbrev Env := List EnvVar

/-- Undefined behaviour and non-termination made explicit. -/
inductive Fault where
  | overflow      -- a write past the end of a fixed-size buffer
  | null_deref    -- a NULL pointer is handed to `strcmp`
  | out_of_range  -- an array element outside the array is read
  | no_fuel       -- the iteration bound of a modelled loop was too small
deriving DecidableEq, Repr

/-- Result of a computation that may hit undefined behaviour. -/
inductive Res (α : Type) where
  | ok (a : α)
  | fault (f : Fault)
deriving DecidableEq, Repr

/-! ## Environment store (`main.c` lines 55-97) -/

/-- The search loop of `set_env_var`, `unset_env_var` and `get_env_var`:
the least `i < env_var_count` with `strcmp(env_vars[i].name, name) == 0`. -/
def find_var (name : CStr) : Env → Option Nat
  | [] => none
  | e :: rest => if e.name = name then some 0 else (find_var name rest).map (· + 1)

/-- The function `set_env_var`: `strncpy` keeps at most `MAX - 1` characters of each string. -/
def set_env_var (env : Env) (name value : CStr) : Env :=
  match find_var name env with
  | some index =>
    env.set index ⟨name.take (MAX_VAR_NAME - 1), value.take (MAX_VAR_VALUE - 1)⟩
  | none =>
    if env.length < MAX_ENV_VARS then
      env ++ [⟨name.take (MAX_VAR_NAME - 1), value.take (MAX_VAR_VALUE - 1)⟩]
    else env -- "Maximum environment variables reached"

/-- The inner loop of `unset_env_var`, run for `n` iterations from index `j`:
`strcpy` of entry `j + 1` into entry `j`. -/
def shift_down : Nat → Nat → Env → Env
  | 0, _, env => env
  | n + 1, j, env => shift_down n (j + 1) (env.set j (env.getD (j + 1) ⟨[], []⟩))

/-- The function `unset_env_var`: at the first match, the entries `i .. env_var_count-2`
are overwritten by their successors and `env_var_count` is decremented. -/
def unset_env_var (env : Env) (name : CStr) : Env :=
  match find_var name env with
  | some i => (shift_down (env.length - 1 - i) i env).dropLast
  | none => env

/-- The function `get_env_var`: the value of the first entry with that name, or NULL. -/
def get_env_var : Env → CStr → Option CStr
  | [], _ => none
  | e :: rest, name => if e.name = name then some e.value else get_env_var rest name

/-! ## Expander (`main.c` lines 100-122) -/

/-- The test `isalnum` in the C locale. -/
def isalnum (c : Char) : Bool := c.isAlpha || c.isDigit

/-- The test of the inner `while` of `replace_env_vars`. -/
def is_name_char (c : Char) : Bool := isalnum c || c == '_'

/-- The outer `while` of `replace_env_vars`, with `result` and `curr` as
state.  `result` is a buffer of `MAX_COMMAND_LENGTH` bytes and `var_name`
one of `MAX_VAR_NAME` bytes; a write past either is a fault. -/
def replace_loop (env : Env) : Nat → CStr → CStr → Res CStr
  | 0, _, _ => .fault .no_fuel
  | fuel + 1, result, curr =>
    if '$' ∈ curr then
      let pre := curr.takeWhile (· != '$')
      let after := curr.drop (pre.length + 1)
      if MAX_COMMAND_LENGTH ≤ result.length + pre.length then .fault .overflow
      else
        let n := (after.takeWhile is_name_char).length
        if MAX_VAR_NAME ≤ n then .fault .overflow
        else
          match get_env_var env (after.take n) with
          | some value =>
            if MAX_COMMAND_LENGTH ≤ (result ++ pre).length + value.length then
              .fault .overflow
            else replace_loop env fuel (result ++ pre ++ value) (after.drop n)
          | none => replace_loop env fuel (result ++ pre) (after.drop n)
    else if MAX_COMMAND_LENGTH ≤ result.length + curr.length then .fault .overflow
    else .ok (result ++ curr)

/-- The function `replace_env_vars`: the new content of `command`, the
`MAX_COMMAND_LENGTH`-byte line buffer of `main`, which the final `strcpy`
fills from `result`.  Every iteration moves `curr` past one `$`, so
`command.length + 1` iterations suffice. -/
def replace_env_vars (env : Env) (command : CStr) : Res CStr :=
  replace_loop env (command.length + 1) [] command

/-! ### The expansion as the specification words it -/

/-- A piece of a line: literal text with no `$`, or a `$` with the name after it. -/
inductive Segment where
  | text (s : CStr)
  | var (name : CStr)
deriving DecidableEq, Repr

/-- The line cut into its `$`-free stretches and its `$NAME` references,
`NAME` being the longest run of letters, digits and underscores after the `$`. -/
def segments : CStr → List Segment
  | [] => []
  | c :: cs =>
    if c = '$' then
      match segments cs with
      | .text t :: rest =>
        .var (t.takeWhile is_name_char) :: .text (t.dropWhile is_name_char) :: rest
      | rest => .var [] :: rest
    else
      match segments cs with
      | .text t :: rest => .text (c :: t) :: rest
      | rest => .text [c] :: rest

/-- The stored value of a name: the value of the first entry so named. -/
def stored_value (env : Env) (name : CStr) : Option CStr :=
  (env.find? (fun e => e.name = name)).map (·.value)

/-- What a segment contributes to the expanded line. -/
def Segment.expand (env : Env) : Segment → CStr
  | .text s => s
  | .var name => (stored_value env name).getD []

/-- The expansion the specification describes. -/
def expand_spec (env : Env) (line : CStr) : CStr :=
  ((segments line).map (Segment.expand env)).flatten

/-- The variable names referenced by a line. -/
def var_names (line : CStr) : List CStr :=
  (segments line).filterMap (fun s => match s with | .var n => some n | .text _ => none)

/-! ## `strtok` (C library), on a buffer with a saved position -/

/-- The byte at offset `p` of a buffer holding a C string: the byte after
the last character of the list is the terminating NUL. -/
def char_at (buf : List Char) (p : Nat) : Char := buf.getD p NUL

/-- The C string that starts at offset `p`: what `strdup` and `strcmp` read there. -/
def cstr_at (buf : List Char) (p : Nat) : CStr := (buf.drop p).takeWhile (· != NUL)

/-- The call `strspn(buf + p, d)` for a one-character set `d`. -/
def strspn (buf : List Char) (p : Nat) (d : Char) : Nat :=
  ((buf.drop p).takeWhile (· == d)).length

/-- The call `strcspn(buf + p, d)` for a one-character set `d`. -/
def strcspn (buf : List Char) (p : Nat) (d : Char) : Nat :=
  ((buf.drop p).takeWhile (fun c => c != d && c != NUL)).length

/-- The memory `strtok` works on: the line buffer and the one saved
position that all callers share. -/
structure TokState where
  buf : List Char
  save : Nat
deriving DecidableEq, Repr

/-- The call `strtok(s, d)`, `s = none` standing for a NULL first argument: skip the
delimiters, return NULL at the end of the string, else overwrite the
delimiter that ends the token with NUL and save the position after it. -/
def strtok (st : TokState) (s : Option Nat) (d : Char) : Option Nat × TokState :=
  let s0 := s.getD st.save
  let s1 := s0 + strspn st.buf s0 d
  if char_at st.buf s1 = NUL then (none, ⟨st.buf, s1⟩)
  else
    let e := s1 + strcspn st.buf s1 d
    if char_at st.buf e = NUL then (some s1, ⟨st.buf, e⟩)
    else (some s1, ⟨st.buf.set e NUL, e + 1⟩)

/-! ## Parser (`main.c` lines 144-167) -/

/-- A `Command`: `args` is the array of `MAX_ARGS` pointers, `none` being NULL. -/
structure Command where
  args : List (Option CStr)
  arg_count : Nat
  input_file : Option CStr
  output_file : Option CStr
  background : Nat
deriving DecidableEq, Repr

/-- A `Command` after `memset(.., 0, ..)`. -/
def Command.zero : Command := ⟨List.replicate MAX_ARGS none, 0, none, none, 0⟩

/-- The `while (token && cmd->arg_count < MAX_ARGS - 1)` loop of `parse_command`. -/
def parse_loop : Nat → TokState → Option Nat → Command → Res (TokState × Command)
  | 0, _, _, _ => .fault .no_fuel
  | fuel + 1, st, token, cmd =>
    match token with
    | none => .ok (st, cmd)
    | some t =>
      if cmd.arg_count < MAX_ARGS - 1 then
        if cstr_at st.buf t = ['<'] then
          let r := strtok st none ' '
          let cmd1 := match r.1 with
            | some f => { cmd with input_file := some (cstr_at r.2.buf f) }
            | none => cmd
          let r2 := strtok r.2 none ' '
          parse_loop fuel r2.2 r2.1 cmd1
        else if cstr_at st.buf t = ['>'] then
          let r := strtok st none ' '
          let cmd1 := match r.1 with
            | some f => { cmd with output_file := some (cstr_at r.2.buf f) }
            | none => cmd
          let r2 := strtok r.2 none ' '
          parse_loop fuel r2.2 r2.1 cmd1
        else if cstr_at st.buf t = ['&'] then
          .ok (st, { cmd with background := 1 })
        else
          let cmd1 := { cmd with
            args := cmd.args.set cmd.arg_count (some (cstr_at st.buf t))
            arg_count := cmd.arg_count + 1 }
          let r2 := strtok st none ' '
          parse_loop fuel r2.2 r2.1 cmd1
      else .ok (st, cmd)

/-- The call `parse_command(buf + cmd_str, cmd)`.  Every iteration of the loop
consumes a token, so the buffer length bounds the iterations. -/
def parse_command (st : TokState) (cmd_str : Nat) (cmd : Command) :
    Res (TokState × Command) :=
  let p := cmd_str + strspn st.buf cmd_str ' '
  let r := strtok st (some p) ' '
  match parse_loop (st.buf.length + 1) r.2 r.1 cmd with
  | .fault f => .fault f
  | .ok (st1, cmd1) => .ok (st1, { cmd1 with args := cmd1.args.set cmd1.arg_count none })

/-! ### The scan of the tokens as the specification words it -/

/-- The tokens of a stage: the maximal runs of characters other than the space. -/
def tokens (s : CStr) : List CStr := (s.splitOn ' ').filter (fun w => w ≠ [])

/-- What the scan collects. -/
structure Stage where
  args : List CStr
  input_file : Option CStr
  output_file : Option CStr
  background : Nat
deriving DecidableEq, Repr

/-- The left-to-right scan of the tokens. -/
def scan_tokens : List CStr → Stage → Stage
  | [], s => s
  | [t], s =>
    if t = ['<'] then s
    else if t = ['>'] then s
    else if t = ['&'] then { s with background := 1 }
    else { s with args := s.args ++ [t] }
  | t :: f :: rest, s =>
    if t = ['<'] then scan_tokens rest { s with input_file := some f }
    else if t = ['>'] then scan_tokens rest { s with output_file := some f }
    else if t = ['&'] then { s with background := 1 }
    else scan_tokens (f :: rest) { s with args := s.args ++ [t] }

/-- The `Command` that holds a scanned stage: the arguments in the first
slots of `args`, NULL in every slot from index `arg_count` on. -/
def Stage.toCommand (s : Stage) : Command :=
  { args := s.args.map some ++ List.replicate (MAX_ARGS - s.args.length) none
    arg_count := s.args.length
    input_file := s.input_file
    output_file := s.output_file
    background := s.background }

/-! ## Pipeline executor (`main.c` lines 170-266) -/

/-- What a standard stream of a child is bound to when it calls `execv`. -/
inductive Endpoint where
  | inherited                -- the stream the shell itself has
  | pipe_read (i : Nat)      -- `pipes[i][0]`
  | pipe_write (i : Nat)     -- `pipes[i][1]`
  | file (path : CStr)       -- a file opened by the child
deriving DecidableEq, Repr

/-- A forked child at the moment it replaces its program image. -/
structure Child where
  stdin : Endpoint
  stdout : Endpoint
  args : List (Option CStr)
deriving DecidableEq, Repr

/-- The outcome of the `open` calls: which paths can be opened for reading
(`O_RDONLY`) and for writing (`O_WRONLY | O_CREAT | O_TRUNC`). -/
structure FileSystem where
  can_read : CStr → Bool
  can_write : CStr → Bool

/-- The function `execute_single_command`: the child, and whether the parent waits for it. -/
def execute_single_command (fs : FileSystem) (cmd : Command) : Child × Bool :=
  ({ stdin := match cmd.input_file with
      | some f => if fs.can_read f then .file f else .inherited
      | none => .inherited
     stdout := match cmd.output_file with
      | some f => if fs.can_write f then .file f else .inherited
      | none => .inherited
     args := cmd.args },
   cmd.background = 0)

/-- The child forked for stage `i` in the loop of `execute_pipeline`
(lines 229-251): the two `dup2` calls, then every pipe descriptor closed. -/
def pipeline_child (commands : List Command) (cmd_count i : Nat) : Child :=
  { stdin := if 0 < i then .pipe_read (i - 1) else .inherited
    stdout := if i + 1 < cmd_count then .pipe_write i else .inherited
    args := (commands.getD i Command.zero).args }

/-- The function `execute_pipeline`: the children in stage order, and whether the parent
waits.  With `cmd_count = 0` the read of `commands[cmd_count-1]` is outside
the array. -/
def execute_pipeline (fs : FileSystem) (commands : List Command) (cmd_count : Nat) :
    Res (List Child × Bool) :=
  if cmd_count = 1 then
    let r := execute_single_command fs (commands.getD 0 Command.zero)
    .ok ([r.1], r.2)
  else
    let children := (List.range cmd_count).map (pipeline_child commands cmd_count)
    if cmd_count = 0 then .fault .out_of_range
    else .ok (children, (commands.getD (cmd_count - 1) Command.zero).background = 0)

/-! ## `process_command` (`main.c` lines 269-329) -/

/-- The test `isspace` in the C locale. -/
def isspace (c : Char) : Bool := c == ' ' || (9 ≤ c.toNat && c.toNat ≤ 13)

/-- The stage-splitting loop (lines 284-287); the first argument is
`MAX_COMMANDS - cmd_count`. -/
def split_loop : Nat → TokState → Option Nat → List Command → Nat →
    Res (List Command × Nat)
  | 0, _, _, commands, cmd_count => .ok (commands, cmd_count)
  | n + 1, st, cmd_str, commands, cmd_count =>
    match cmd_str with
    | none => .ok (commands, cmd_count)
    | some p =>
      match parse_command st p (commands.getD cmd_count Command.zero) with
      | .fault f => .fault f
      | .ok (st1, cmd) =>
        let r := strtok st1 none '|'
        split_loop n r.2 r.1 (commands.set cmd_count cmd) (cmd_count + 1)

/-- Lines 283-287 on an expanded line: the array `commands` and `cmd_count`. -/
def split_stages (line : CStr) : Res (List Command × Nat) :=
  let r := strtok ⟨line, 0⟩ (some 0) '|'
  split_loop MAX_COMMANDS r.2 r.1 (List.replicate MAX_COMMANDS Command.zero) 0

/-- What `process_command` did with a line. -/
inductive Action where
  | nothing                                      -- blank line
  | cd (dir : Option CStr)                       -- `chdir(dir)` when a directory is given
  | pwd
  | set
  | unset
  | run (children : List Child) (waited : Bool)  -- `execute_pipeline` was called
deriving DecidableEq, Repr

/-- Lines 322-323: hand the commands to `execute_pipeline`. -/
def run_pipeline (fs : FileSystem) (env : Env) (commands : List Command) (cmd_count : Nat) :
    Res (Env × Action) :=
  match execute_pipeline fs commands cmd_count with
  | .fault f => .fault f
  | .ok (children, waited) => .ok (env, .run children waited)

/-- Lines 289-323: the built-in dispatch, else the pipeline. -/
def dispatch (fs : FileSystem) (env : Env) (commands : List Command) (cmd_count : Nat) :
    Res (Env × Action) :=
  if cmd_count = 1 then
    let c0 := commands.getD 0 Command.zero
    match c0.args.getD 0 none with
    | none => .fault .null_deref
    | some name =>
      if name = ['c', 'd'] then
        .ok (env, .cd (if 1 < c0.arg_count then c0.args.getD 1 none else none))
      else if name = ['p', 'w', 'd'] then .ok (env, .pwd)
      else if name = ['s', 'e', 't'] then
        if 3 ≤ c0.arg_count then
          match c0.args.getD 1 none, c0.args.getD 2 none with
          | some n, some v => .ok (set_env_var env n v, .set)
          | _, _ => .fault .null_deref
        else .ok (env, .set)
      else if name = ['u', 'n', 's', 'e', 't'] then
        if 2 ≤ c0.arg_count then
          match c0.args.getD 1 none with
          | some n => .ok (unset_env_var env n, .unset)
          | none => .fault .null_deref
        else .ok (env, .unset)
      else run_pipeline fs env commands cmd_count
  else run_pipeline fs env commands cmd_count

/-- The function `process_command`: the new store and what was done. -/
def process_command (fs : FileSystem) (env : Env) (command : CStr) : Res (Env × Action) :=
  if command.all isspace then .ok (env, .nothing)
  else
    match replace_env_vars env command with
    | .fault f => .fault f
    | .ok line =>
      match split_stages line with
      | .fault f => .fault f
      | .ok (commands, cmd_count) => dispatch fs env commands cmd_count


/-- What a call of `strtok` finds in the string `v` it scans: the token and
the string left after the delimiter that ended it. -/
def next_token (d : Char) (v : CStr) : Option (CStr × CStr) :=
  match v.dropWhile (· == d) with
  | [] => none
  | c :: cs => some ((c :: cs).takeWhile (· != d), ((c :: cs).dropWhile (· != d)).drop 1)



/-! ## Auxiliary definitions used by the statements -/

/-- Sequencing of two computations that may fault. -/
def Res.bind {α β : Type} (r : Res α) (f : α → Res β) : Res β :=
  match r with
  | .ok a => f a
  | .fault e => .fault e

/-- A file system in which every `open` succeeds. -/
def all_files : FileSystem := ⟨fun _ => true, fun _ => true⟩

/-- The scan starts from a zeroed `Command`. -/
def Stage.empty : Stage := ⟨[], none, none, 0⟩

/-- The stores reachable from the empty store by `set_env_var` and `unset_env_var`. -/
inductive Reachable : Env → Prop where
  | start : Reachable []
  | set_var (env : Env) (name value : CStr) :
      Reachable env → Reachable (set_env_var env name value)
  | unset_var (env : Env) (name : CStr) :
      Reachable env → Reachable (unset_env_var env name)

/-- The stores reachable when every name handed to `set_env_var` fits the
63 characters that `strncpy` keeps. -/
inductive ReachableShort : Env → Prop where
  | start : ReachableShort []
  | set_var (env : Env) (name value : CStr) : name.length ≤ 63 →
      ReachableShort env → ReachableShort (set_env_var env name value)
  | unset_var (env : Env) (name : CStr) :
      ReachableShort env → ReachableShort (unset_env_var env name)

/-- The tokens the scan leaves unread: those after the `&` that ended it. -/
def scan_rest : List CStr → List CStr
  | [] => []
  | [_] => []
  | t :: f :: rest =>
    if t = ['<'] then scan_rest rest
    else if t = ['>'] then scan_rest rest
    else if t = ['&'] then f :: rest
    else scan_rest (f :: rest)


/-! ## Lemmas on the environment store -/

theorem find_var_none_iff (name : CStr) (env : Env) :
    find_var name env = none ↔ ∀ e ∈ env, e.name ≠ name := by
  induction env with
  | nil => simp [find_var]
  | cons e rest ih =>
    by_cases h : e.name = name
    · simp [find_var, h]
    · simp [find_var, h, ih]

theorem find_var_lt (name : CStr) (env : Env) (i : Nat) (h : find_var name env = some i) :
    i < env.length := by
  induction env generalizing i with
  | nil => simp [find_var] at h
  | cons e rest ih =>
    by_cases hn : e.name = name
    · simp [find_var, hn] at h
      subst h
      simp
    · simp only [find_var, hn, if_false, Option.map_eq_some'] at h
      obtain ⟨k, hk, rfl⟩ := h
      have := ih k hk
      simp
      omega

theorem getElem?_shift_down (n : Nat) : ∀ (j : Nat) (env : Env) (k : Nat),
    j + n < env.length →
    (shift_down n j env)[k]? = if j ≤ k ∧ k < j + n then env[k + 1]? else env[k]? := by
  induction n with
  | zero =>
    intro j env k _
    have : ¬ (j ≤ k ∧ k < j) := by omega
    simp [shift_down, this]
  | succ n ih =>
    intro j env k h
    have hlen : j + 1 + n < (env.set j (env.getD (j + 1) ⟨[], []⟩)).length := by
      simp; omega
    rw [shift_down, ih (j + 1) _ k hlen]
    have hj1 : some (env.getD (j + 1) ⟨[], []⟩) = env[j + 1]? := by
      simp [List.getD_eq_getElem?_getD, List.getElem?_eq_getElem (show j + 1 < env.length by omega)]
    by_cases c1 : j + 1 ≤ k ∧ k < j + 1 + n
    · have c2 : j ≤ k ∧ k < j + (n + 1) := by omega
      have c3 : j ≠ k + 1 := by omega
      simp [c1, c2, List.getElem?_set, c3]
    · by_cases c4 : k = j
      · subst c4
        have c2 : k ≤ k ∧ k < k + (n + 1) := by omega
        have hk : k < env.length := by omega
        rw [if_neg c1, if_pos c2, List.getElem?_set_self hk, hj1]
      · have c2 : ¬ (j ≤ k ∧ k < j + (n + 1)) := by omega
        have c5 : j ≠ k := by omega
        simp [c1, c2, List.getElem?_set, c5]

theorem unset_env_var_eq (env : Env) (name : CStr) :
    unset_env_var env name =
      match find_var name env with
      | some i => env.eraseIdx i
      | none => env := by
  unfold unset_env_var
  cases h : find_var name env with
  | none => rfl
  | some i =>
    have hi := find_var_lt name env i h
    simp only
    apply List.ext_getElem?
    intro k
    rw [List.getElem?_eraseIdx]
    have hlen : ∀ n j (e : Env), (shift_down n j e).length = e.length := by
      intro n
      induction n with
      | zero => intro j e; rfl
      | succ n ih => intro j e; rw [shift_down, ih]; simp
    have hsh := getElem?_shift_down (env.length - 1 - i) i env k (by omega)
    by_cases hk : k < env.length - 1
    · rw [List.getElem?_dropLast, hlen, if_pos hk, hsh]
      by_cases c : k < i
      · have : ¬ (i ≤ k ∧ k < i + (env.length - 1 - i)) := by omega
        simp [c, this]
      · have : (i ≤ k ∧ k < i + (env.length - 1 - i)) := by omega
        simp [c, this]
    · have h1 : (shift_down (env.length - 1 - i) i env).dropLast[k]? = none := by
        apply List.getElem?_eq_none
        simp [hlen]; omega
      rw [h1]
      by_cases c : k < i
      · omega
      · simp only [c, if_false]
        symm
        apply List.getElem?_eq_none
        omega

theorem unset_env_var_nil (name : CStr) : unset_env_var [] name = [] := by
  simp [unset_env_var_eq, find_var]

theorem unset_env_var_cons (e : EnvVar) (rest : Env) (name : CStr) :
    unset_env_var (e :: rest) name =
      if e.name = name then rest else e :: unset_env_var rest name := by
  rw [unset_env_var_eq, unset_env_var_eq]
  by_cases h : e.name = name
  · simp [find_var, h]
  · simp only [find_var, h, if_false]
    cases find_var name rest <;> simp

theorem get_env_var_eq_stored (env : Env) (name : CStr) :
    get_env_var env name = stored_value env name := by
  induction env with
  | nil => simp [get_env_var, stored_value]
  | cons e rest ih =>
    by_cases h : e.name = name
    · simp [get_env_var, stored_value, h]
    · simp [get_env_var, stored_value, h, List.find?_cons] at ih ⊢
      exact ih

theorem get_env_var_none_iff (env : Env) (name : CStr) :
    get_env_var env name = none ↔ ∀ e ∈ env, e.name ≠ name := by
  induction env with
  | nil => simp [get_env_var]
  | cons e rest ih =>
    by_cases h : e.name = name
    · simp [get_env_var, h]
    · simp [get_env_var, h, ih]

theorem get_after_set (env : Env) (name value : CStr)
    (hroom : (∃ e ∈ env, e.name = name) ∨ env.length < MAX_ENV_VARS)
    (hlen : name.length ≤ 63) :
    get_env_var (set_env_var env name value) name = some (value.take 255) := by
  have htake : name.take (MAX_VAR_NAME - 1) = name := List.take_of_length_le hlen
  have hv : value.take (MAX_VAR_VALUE - 1) = value.take 255 := rfl
  unfold set_env_var
  rw [htake, hv]
  generalize value.take 255 = v
  cases h : find_var name env with
  | some i =>
    simp only
    clear hroom
    induction env generalizing i with
    | nil => simp [find_var] at h
    | cons e rest ih =>
      by_cases hn : e.name = name
      · simp [find_var, hn] at h
        subst h
        simp [get_env_var]
      · simp only [find_var, hn, if_false, Option.map_eq_some'] at h
        obtain ⟨k, hk, rfl⟩ := h
        simp [get_env_var, hn]
        exact ih k hk
  | none =>
    have hno := (find_var_none_iff name env).1 h
    have hlt : env.length < MAX_ENV_VARS := by
      rcases hroom with ⟨e, he, hen⟩ | h2
      · exact absurd hen (hno e he)
      · exact h2
    simp only [hlt, if_true]
    clear h hroom hlt
    induction env with
    | nil => simp [get_env_var]
    | cons e rest ih =>
      have hn : e.name ≠ name := hno e (by simp)
      simp [get_env_var, hn]
      exact ih (fun e he => hno e (by simp [he]))

theorem get_after_unset (env : Env) (name : CStr) (hnd : (env.map (·.name)).Nodup) :
    get_env_var (unset_env_var env name) name = none := by
  induction env with
  | nil => simp [unset_env_var_nil, get_env_var]
  | cons e rest ih =>
    simp only [List.map_cons, List.nodup_cons, List.mem_map, not_exists, not_and] at hnd
    rw [unset_env_var_cons]
    by_cases h : e.name = name
    · simp only [h, if_true]
      rw [get_env_var_none_iff]
      intro e' he' heq
      exact hnd.1 e' he' (heq.trans h.symm)
    · simp only [h, if_false, get_env_var]
      exact ih hnd.2

theorem get_unset_other (env : Env) (name other : CStr) (h : other ≠ name) :
    get_env_var (unset_env_var env name) other = get_env_var env other := by
  induction env with
  | nil => simp [unset_env_var_nil]
  | cons e rest ih =>
    rw [unset_env_var_cons]
    by_cases hn : e.name = name
    · have : e.name ≠ other := fun h2 => h (h2.symm.trans hn)
      simp [hn, get_env_var, this]
      have : ¬ name = other := fun h2 => h h2.symm
      simp [this]
    · by_cases ho : e.name = other
      · subst ho
        simp [hn, get_env_var]
      · simp [hn, get_env_var, ho, ih]

theorem unset_eq_filter (env : Env) (name : CStr) (hnd : (env.map (·.name)).Nodup) :
    unset_env_var env name = env.filter (fun e => e.name ≠ name) := by
  induction env with
  | nil => simp [unset_env_var_nil]
  | cons e rest ih =>
    simp only [List.map_cons, List.nodup_cons, List.mem_map, not_exists, not_and] at hnd
    rw [unset_env_var_cons]
    by_cases h : e.name = name
    · have hf : rest.filter (fun e => decide (e.name ≠ name)) = rest := by
        rw [List.filter_eq_self]
        intro e' he'
        have : e'.name ≠ name := fun heq => hnd.1 e' he' (heq.trans h.symm)
        simpa using this
      rw [List.filter_cons, hf]
      simp [h]
    · simp [h, List.filter_cons, ih hnd.2]

theorem unset_length (env : Env) (name : CStr) (h : ∃ e ∈ env, e.name = name) :
    (unset_env_var env name).length + 1 = env.length := by
  induction env with
  | nil => simp at h
  | cons e rest ih =>
    rw [unset_env_var_cons]
    by_cases hn : e.name = name
    · simp [hn]
    · simp only [hn, if_false, List.length_cons]
      obtain ⟨e', he', hen⟩ := h
      simp at he'
      rcases he' with rfl | he'
      · exact absurd hen hn
      · rw [ih ⟨e', he', hen⟩]

theorem unset_absent (env : Env) (name : CStr) (h : ∀ e ∈ env, e.name ≠ name) :
    unset_env_var env name = env := by
  rw [unset_env_var_eq, (find_var_none_iff name env).2 h]

theorem find_var_name (name : CStr) (env : Env) (i : Nat) (h : find_var name env = some i) :
    (env.map (·.name))[i]? = some name := by
  induction env generalizing i with
  | nil => simp [find_var] at h
  | cons e rest ih =>
    by_cases hn : e.name = name
    · simp [find_var, hn] at h
      subst h
      simp [hn]
    · simp only [find_var, hn, if_false, Option.map_eq_some'] at h
      obtain ⟨k, hk, rfl⟩ := h
      simpa using ih k hk

theorem set_env_var_names (env : Env) (name value : CStr) (hlen : name.length ≤ 63)
    (hnd : (env.map (·.name)).Nodup) : ((set_env_var env name value).map (·.name)).Nodup := by
  have htake : name.take (MAX_VAR_NAME - 1) = name := List.take_of_length_le hlen
  unfold set_env_var
  rw [htake]
  cases h : find_var name env with
  | some i =>
    simp only
    have hi := find_var_name name env i h
    have hsame : (env.set i ⟨name, value.take (MAX_VAR_VALUE - 1)⟩).map (·.name) =
        env.map (·.name) := by
      rw [List.map_set]
      apply List.ext_getElem?
      intro k
      by_cases hk : i = k
      · subst hk
        rw [List.getElem?_set_self (by
          have := find_var_lt name env i h
          simpa using this), hi]
      · rw [List.getElem?_set_ne hk]
    rw [hsame]
    exact hnd
  | none =>
    have hno := (find_var_none_iff name env).1 h
    simp only
    split
    · rw [List.map_append, List.nodup_append]
      refine ⟨hnd, by simp, ?_⟩
      intro a ha hb
      simp only [List.map_cons, List.map_nil, List.mem_singleton] at hb
      subst hb
      simp only [List.mem_map] at ha
      obtain ⟨e, he, hen⟩ := ha
      exact hno e he hen
    · exact hnd

theorem unset_env_var_sublist (env : Env) (name : CStr) : (unset_env_var env name).Sublist env := by
  rw [unset_env_var_eq]
  cases find_var name env with
  | none => exact List.Sublist.refl _
  | some i => exact List.eraseIdx_sublist _ _

/-- With names that fit, the store never holds a name twice. -/
theorem short_names_stay_distinct (env : Env) (h : ReachableShort env) :
    (env.map (·.name)).Nodup := by
  induction h with
  | start => simp
  | set_var env name value hlen _ ih => exact set_env_var_names env name value hlen ih
  | unset_var env name _ ih =>
    exact List.Nodup.sublist ((unset_env_var_sublist env name).map _) ih


/-! ## Lemmas on the expander -/

theorem not_name_char_dollar : is_name_char '$' = false := by decide

theorem ne_dollar_of_name_char (c : Char) (h : is_name_char c = true) : c ≠ '$' := by
  intro hc
  subst hc
  simp [not_name_char_dollar] at h

theorem segments_dollar_head (cs : CStr) : ∃ n r, segments ('$' :: cs) = .var n :: r := by
  simp only [segments, if_true]
  split
  · exact ⟨_, _, rfl⟩
  · exact ⟨_, _, rfl⟩

theorem segments_cons_ne (cs : CStr) : ∀ c : Char, c ≠ '$' →
    segments (c :: cs) =
      .text (c :: cs.takeWhile (· != '$')) :: segments (cs.dropWhile (· != '$')) := by
  induction cs with
  | nil =>
    intro c hc
    simp [segments, hc]
  | cons d ds ih =>
    intro c hc
    by_cases hd : d = '$'
    · subst hd
      obtain ⟨n, r, hnr⟩ := segments_dollar_head ds
      rw [segments, if_neg hc, hnr]
      simp [hnr]
    · rw [segments, if_neg hc, ih d hd]
      simp [hd]

theorem expand_spec_cons_ne (env : Env) (c : Char) (cs : CStr) (hc : c ≠ '$') :
    expand_spec env (c :: cs) = c :: expand_spec env cs := by
  unfold expand_spec
  rw [segments, if_neg hc]
  cases h : segments cs with
  | nil => simp [Segment.expand]
  | cons s r => cases s <;> simp [Segment.expand]

theorem var_names_cons_ne (c : Char) (cs : CStr) (hc : c ≠ '$') :
    var_names (c :: cs) = var_names cs := by
  unfold var_names
  rw [segments, if_neg hc]
  cases h : segments cs with
  | nil => simp
  | cons s r => cases s <;> simp

theorem expand_spec_append (env : Env) (pre rest : CStr) (h : '$' ∉ pre) :
    expand_spec env (pre ++ rest) = pre ++ expand_spec env rest := by
  induction pre with
  | nil => rfl
  | cons c cs ih =>
    simp only [List.mem_cons, not_or] at h
    rw [List.cons_append, expand_spec_cons_ne env c _ (fun hc => h.1 hc.symm), ih h.2]
    rfl

theorem var_names_append (pre rest : CStr) (h : '$' ∉ pre) :
    var_names (pre ++ rest) = var_names rest := by
  induction pre with
  | nil => rfl
  | cons c cs ih =>
    simp only [List.mem_cons, not_or] at h
    rw [List.cons_append, var_names_cons_ne c _ (fun hc => h.1 hc.symm), ih h.2]

theorem expand_spec_no_dollar (env : Env) (s : CStr) (h : '$' ∉ s) : expand_spec env s = s := by
  have := expand_spec_append env s [] h
  simpa [expand_spec, segments] using this

theorem takeWhile_takeWhile_of_imp {α : Type} (p q : α → Bool) (hpq : ∀ a, p a = true → q a = true)
    (l : List α) : (l.takeWhile q).takeWhile p = l.takeWhile p := by
  induction l with
  | nil => rfl
  | cons a l ih =>
    by_cases hp : p a = true
    · simp [List.takeWhile_cons, hp, hpq a hp, ih]
    · by_cases hq : q a = true
      · simp [List.takeWhile_cons, hp, hq]
      · simp [List.takeWhile_cons, hp, hq]

theorem dropWhile_dropWhile_of_imp {α : Type} (p q : α → Bool) (hpq : ∀ a, p a = true → q a = true)
    (l : List α) : (l.dropWhile q).dropWhile p = l.dropWhile q := by
  induction l with
  | nil => rfl
  | cons a l ih =>
    by_cases hq : q a = true
    · simp [List.dropWhile_cons, hq, ih]
    · have hp : ¬ p a = true := fun hp => hq (hpq a hp)
      simp [List.dropWhile_cons, hq, hp]

theorem dropWhile_split {α : Type} (p q : α → Bool) (hpq : ∀ a, p a = true → q a = true)
    (l : List α) :
    l.dropWhile p = (l.takeWhile q).dropWhile p ++ l.dropWhile q := by
  induction l with
  | nil => rfl
  | cons a l ih =>
    by_cases hp : p a = true
    · simp [List.dropWhile_cons, List.takeWhile_cons, hp, hpq a hp, ih]
    · by_cases hq : q a = true
      · simp [List.dropWhile_cons, List.takeWhile_cons, hp, hq]
      · simp [List.dropWhile_cons, List.takeWhile_cons, hp, hq]

theorem not_mem_takeWhile_ne (c : Char) (l : CStr) : c ∉ l.takeWhile (· != c) := by
  intro h
  have := List.mem_takeWhile_imp h
  simp at this

theorem not_mem_dropWhile_of_not_mem {α : Type} (p : α → Bool) (a : α) (l : List α) (h : a ∉ l) :
    a ∉ l.dropWhile p := fun h2 => h ((List.dropWhile_sublist p).subset h2)

theorem name_imp_ne_dollar : ∀ a, is_name_char a = true → (a != '$') = true := by
  intro a h
  simpa using ne_dollar_of_name_char a h

theorem take_length_takeWhile {α : Type} (p : α → Bool) (l : List α) :
    l.take (l.takeWhile p).length = l.takeWhile p := by
  induction l with
  | nil => rfl
  | cons a l ih =>
    by_cases hp : p a = true
    · simp [List.takeWhile_cons, hp, ih]
    · simp [List.takeWhile_cons, hp]

theorem drop_length_takeWhile {α : Type} (p : α → Bool) (l : List α) :
    l.drop (l.takeWhile p).length = l.dropWhile p := by
  induction l with
  | nil => rfl
  | cons a l ih =>
    by_cases hp : p a = true
    · simp [List.takeWhile_cons, List.dropWhile_cons, hp, ih]
    · simp [List.takeWhile_cons, List.dropWhile_cons, hp]

theorem dropWhile_ne_cases (c : Char) (l : CStr) :
    l.dropWhile (· != c) = [] ∨ ∃ xs, l.dropWhile (· != c) = c :: xs := by
  induction l with
  | nil => exact Or.inl rfl
  | cons a l ih =>
    by_cases h : a = c
    · subst h
      exact Or.inr ⟨l, by simp [List.dropWhile_cons]⟩
    · simpa [List.dropWhile_cons, h] using ih

/-- The segments after a `$`: the name, then the rest of the line. -/
theorem segments_dollar (cs : CStr) :
    ∃ d r, segments ('$' :: cs) = .var (cs.takeWhile is_name_char) :: r ∧
      '$' ∉ d ∧
      (r = segments (cs.dropWhile is_name_char) ∨
        (r = .text d :: segments (cs.dropWhile (· != '$')) ∧
         cs.dropWhile is_name_char = d ++ cs.dropWhile (· != '$'))) := by
  cases cs with
  | nil => exact ⟨[], [], by simp [segments], by simp, Or.inl (by simp [segments])⟩
  | cons c ds =>
    by_cases hc : c = '$'
    · subst hc
      obtain ⟨n, r, hnr⟩ := segments_dollar_head ds
      refine ⟨[], segments ('$' :: ds), ?_, by simp, Or.inl ?_⟩
      · rw [segments, if_pos rfl, hnr]
        simp [not_name_char_dollar, hnr]
      · simp [not_name_char_dollar]
    · refine ⟨((c :: ds).takeWhile (· != '$')).dropWhile is_name_char, _, ?_, ?_, Or.inr ⟨rfl, ?_⟩⟩
      · rw [segments, if_pos rfl, segments_cons_ne ds c hc]
        simp only
        have h1 := takeWhile_takeWhile_of_imp is_name_char (· != '$') name_imp_ne_dollar (c :: ds)
        have h2 : (c :: ds).takeWhile (· != '$') = c :: ds.takeWhile (· != '$') := by
          simp [List.takeWhile_cons, hc]
        have h3 : (c :: ds).dropWhile (· != '$') = ds.dropWhile (· != '$') := by
          simp [List.dropWhile_cons, hc]
        rw [← h2, h1, h3]
      · exact not_mem_dropWhile_of_not_mem _ _ _ (not_mem_takeWhile_ne '$' _)
      · exact dropWhile_split is_name_char (· != '$') name_imp_ne_dollar (c :: ds)

theorem expand_spec_dollar (env : Env) (cs : CStr) :
    expand_spec env ('$' :: cs) =
      (stored_value env (cs.takeWhile is_name_char)).getD [] ++
        expand_spec env (cs.dropWhile is_name_char) := by
  obtain ⟨d, r, hseg, hd, hr⟩ := segments_dollar cs
  rcases hr with hr | ⟨hr, hsplit⟩
  · simp [expand_spec, hseg, hr, Segment.expand]
  · rw [hsplit, expand_spec_append env d _ hd]
    simp [expand_spec, hseg, hr, Segment.expand]

theorem var_names_dollar (cs : CStr) :
    var_names ('$' :: cs) =
      cs.takeWhile is_name_char :: var_names (cs.dropWhile is_name_char) := by
  obtain ⟨d, r, hseg, hd, hr⟩ := segments_dollar cs
  rcases hr with hr | ⟨hr, hsplit⟩
  · simp [var_names, hseg, hr]
  · rw [hsplit, var_names_append d _ hd]
    simp [var_names, hseg, hr]

/-- The loop of `replace_env_vars` computes the specified expansion. -/
theorem replace_loop_eq (env : Env) : ∀ (fuel : Nat) (result curr : CStr),
    curr.length < fuel →
    (∀ n ∈ var_names curr, n.length ≤ 63) →
    result.length + (expand_spec env curr).length < MAX_COMMAND_LENGTH →
    replace_loop env fuel result curr = .ok (result ++ expand_spec env curr) := by
  intro fuel
  induction fuel with
  | zero => intro result curr h; omega
  | succ fuel ih =>
    intro result curr hfuel hnames hfits
    rw [replace_loop]
    by_cases hd : '$' ∈ curr
    · rw [if_pos hd]
      have hsplit : curr = curr.takeWhile (· != '$') ++ curr.dropWhile (· != '$') :=
        (List.takeWhile_append_dropWhile _ _).symm
      have hpre : '$' ∉ curr.takeWhile (· != '$') := not_mem_takeWhile_ne '$' curr
      obtain ⟨after, hafter⟩ : ∃ after, curr.dropWhile (· != '$') = '$' :: after := by
        rcases dropWhile_ne_cases '$' curr with hdw | hdw
        · rw [hdw, List.append_nil] at hsplit
          rw [hsplit] at hd
          exact absurd hd hpre
        · exact hdw
      have hdrop : curr.drop ((curr.takeWhile (· != '$')).length + 1) = after := by
        have h1 : curr.drop ((curr.takeWhile (· != '$')).length + 1) =
            (curr.drop (curr.takeWhile (· != '$')).length).drop 1 := by
          rw [List.drop_drop, Nat.add_comm]
        rw [h1, drop_length_takeWhile, hafter]
        rfl
      generalize hpre_def : curr.takeWhile (· != '$') = pre at *
      rw [hafter] at hsplit
      simp only [hdrop]
      have hexp : expand_spec env curr =
          pre ++ ((stored_value env (after.takeWhile is_name_char)).getD [] ++
            expand_spec env (after.dropWhile is_name_char)) := by
        rw [hsplit, expand_spec_append env pre _ hpre, expand_spec_dollar]
      have hvn : var_names curr =
          after.takeWhile is_name_char :: var_names (after.dropWhile is_name_char) := by
        rw [hsplit, var_names_append pre _ hpre, var_names_dollar]
      have htk : after.take (after.takeWhile is_name_char).length =
          after.takeWhile is_name_char := take_length_takeWhile _ _
      have hdk : after.drop (after.takeWhile is_name_char).length =
          after.dropWhile is_name_char := drop_length_takeWhile _ _
      have hn63 : (after.takeWhile is_name_char).length ≤ 63 :=
        hnames _ (by rw [hvn]; simp)
      have hlen_curr : curr.length = pre.length + 1 + after.length := by
        rw [hsplit]; simp; omega
      have hlen_rest : (after.dropWhile is_name_char).length < fuel := by
        have := (List.dropWhile_sublist is_name_char (l := after)).length_le
        omega
      rw [hexp] at hfits
      simp only [List.length_append] at hfits
      rw [if_neg (by simp only [MAX_COMMAND_LENGTH] at *; omega),
        if_neg (by simp only [MAX_VAR_NAME]; omega), htk, hdk, get_env_var_eq_stored]
      have hnames2 : ∀ n ∈ var_names (after.dropWhile is_name_char), n.length ≤ 63 :=
        fun n hn => hnames n (by rw [hvn]; simp [hn])
      cases hv : stored_value env (after.takeWhile is_name_char) with
      | none =>
        rw [hv] at hfits
        simp only [Option.getD_none, List.length_nil] at hfits
        simp only
        rw [ih _ _ hlen_rest hnames2 (by simp only [List.length_append]; omega), hexp, hv]
        simp
      | some value =>
        rw [hv] at hfits
        simp only [Option.getD_some] at hfits
        simp only
        rw [if_neg (by simp only [List.length_append, MAX_COMMAND_LENGTH] at *; omega),
          ih _ _ hlen_rest hnames2 (by simp only [List.length_append]; omega), hexp, hv]
        simp
    · rw [if_neg hd]
      rw [expand_spec_no_dollar env curr hd] at hfits ⊢
      rw [if_neg (by omega)]

theorem replace_env_vars_eq_spec (env : Env) (line : CStr)
    (hnames : ∀ n ∈ var_names line, n.length ≤ 63)
    (hfits : (expand_spec env line).length < MAX_COMMAND_LENGTH) :
    replace_env_vars env line = .ok (expand_spec env line) := by
  unfold replace_env_vars
  rw [replace_loop_eq env _ [] line (by omega) hnames (by simpa using hfits)]
  simp


/-! ## Lemmas on `strtok` -/

theorem takeWhile_and {α : Type} (p q : α → Bool) (l : List α) :
    l.takeWhile (fun a => p a && q a) = (l.takeWhile q).takeWhile p := by
  induction l with
  | nil => rfl
  | cons a l ih =>
    by_cases hq : q a = true
    · by_cases hp : p a = true
      · simp [List.takeWhile_cons, hp, hq, ih]
      · simp [List.takeWhile_cons, hp, hq]
    · simp [List.takeWhile_cons, hq]

theorem drop_takeWhile_of_le {α : Type} (q : α → Bool) : ∀ (l : List α) (k : Nat),
    k ≤ (l.takeWhile q).length → (l.takeWhile q).drop k = (l.drop k).takeWhile q := by
  intro l
  induction l with
  | nil => intro k _; simp
  | cons a l ih =>
    intro k hk
    cases k with
    | zero => simp
    | succ k =>
      by_cases hq : q a = true
      · simp only [List.takeWhile_cons, hq, if_true, List.length_cons] at hk ⊢
        simp only [List.drop_succ_cons]
        exact ih k (by omega)
      · simp [List.takeWhile_cons, hq] at hk

theorem takeWhile_set_cut (x : Char) (q : Char → Bool) (hx : q x = false) :
    ∀ (l : List Char) (k : Nat), k ≤ (l.takeWhile q).length →
      (l.set k x).takeWhile q = (l.takeWhile q).take k := by
  intro l
  induction l with
  | nil => intro k _; simp
  | cons a l ih =>
    intro k hk
    cases k with
    | zero => simp [List.takeWhile_cons, hx]
    | succ k =>
      by_cases hq : q a = true
      · simp only [List.takeWhile_cons, hq, if_true, List.length_cons] at hk
        simp only [List.set_cons_succ, List.takeWhile_cons, hq, if_true, List.take_succ_cons]
        rw [ih k (by omega)]
      · simp [List.takeWhile_cons, hq] at hk

theorem char_at_eq_head (buf : List Char) (p : Nat) :
    char_at buf p = ((buf.drop p).head?).getD NUL := by
  simp [char_at]

theorem char_at_eq_NUL_iff (buf : List Char) (p : Nat) :
    char_at buf p = NUL ↔ cstr_at buf p = [] := by
  rw [char_at_eq_head, cstr_at]
  cases buf.drop p with
  | nil => simp
  | cons a l =>
    by_cases h : a = NUL
    · simp [h]
    · simp [h, List.takeWhile_cons]

theorem cstr_at_add (buf : List Char) (p k : Nat) (hk : k ≤ (cstr_at buf p).length) :
    cstr_at buf (p + k) = (cstr_at buf p).drop k := by
  unfold cstr_at at *
  rw [drop_takeWhile_of_le _ _ _ hk, List.drop_drop]

theorem strspn_eq (buf : List Char) (p : Nat) (d : Char) (hd : d ≠ NUL) :
    strspn buf p d = ((cstr_at buf p).takeWhile (· == d)).length := by
  unfold strspn cstr_at
  rw [takeWhile_takeWhile_of_imp (· == d) (· != NUL)]
  intro a ha
  have : a = d := by simpa using ha
  subst this
  simpa using hd

theorem strcspn_eq (buf : List Char) (p : Nat) (d : Char) :
    strcspn buf p d = ((cstr_at buf p).takeWhile (· != d)).length := by
  unfold strcspn cstr_at
  rw [takeWhile_and]

theorem cstr_at_set_of_lt (buf : List Char) (e q : Nat) (x : Char) (h : e < q) :
    cstr_at (buf.set e x) q = cstr_at buf q := by
  unfold cstr_at
  rw [List.drop_set_of_lt x buf h]

theorem cstr_at_set_cut (buf : List Char) (p k : Nat) (hk : k ≤ (cstr_at buf p).length) :
    cstr_at (buf.set (p + k) NUL) p = (cstr_at buf p).take k := by
  unfold cstr_at at *
  rw [List.drop_set, if_neg (by omega), Nat.add_sub_cancel_left,
    takeWhile_set_cut NUL (· != NUL) (by simp) _ _ hk]

/-- The effect of `strtok` in terms of the strings at the positions involved. -/
theorem strtok_spec (st : TokState) (s : Option Nat) (d : Char) (hd : d ≠ NUL) :
    ((strtok st s d).2.buf.length = st.buf.length) ∧
    match next_token d (cstr_at st.buf (s.getD st.save)) with
    | none => (strtok st s d).1 = none ∧ cstr_at (strtok st s d).2.buf (strtok st s d).2.save = []
    | some (w, rest) =>
      ∃ t, (strtok st s d).1 = some t ∧ cstr_at (strtok st s d).2.buf t = w ∧
        cstr_at (strtok st s d).2.buf (strtok st s d).2.save = rest := by
  have hk1 := strspn_eq st.buf (s.getD st.save) d hd
  have hv1 : cstr_at st.buf (s.getD st.save + strspn st.buf (s.getD st.save) d) =
      (cstr_at st.buf (s.getD st.save)).dropWhile (· == d) := by
    rw [cstr_at_add _ _ _ (by rw [hk1]; exact (List.takeWhile_sublist _).length_le), hk1,
      drop_length_takeWhile]
  unfold strtok next_token
  simp only
  generalize hs1 : s.getD st.save + strspn st.buf (s.getD st.save) d = s1 at *
  by_cases h1 : char_at st.buf s1 = NUL
  · rw [if_pos h1]
    have h1v := (char_at_eq_NUL_iff _ _).1 h1
    rw [← hv1, h1v]
    exact ⟨rfl, rfl, rfl⟩
  · rw [if_neg h1]
    have h1v : cstr_at st.buf s1 ≠ [] := fun h => h1 ((char_at_eq_NUL_iff _ _).2 h)
    rw [← hv1]
    have hk2 := strcspn_eq st.buf s1 d
    have hk2le : strcspn st.buf s1 d ≤ (cstr_at st.buf s1).length := by
      rw [hk2]; exact (List.takeWhile_sublist _).length_le
    have hv2 : cstr_at st.buf (s1 + strcspn st.buf s1 d) =
        (cstr_at st.buf s1).dropWhile (· != d) := by
      rw [cstr_at_add _ _ _ hk2le, hk2, drop_length_takeWhile]
    cases hv : cstr_at st.buf s1 with
    | nil => exact absurd hv h1v
    | cons c cs =>
      simp only
      rw [← hv]
      by_cases h2 : char_at st.buf (s1 + strcspn st.buf s1 d) = NUL
      · rw [if_pos h2]
        have h2v := (char_at_eq_NUL_iff _ _).1 h2
        refine ⟨rfl, s1, rfl, ?_, ?_⟩
        · simp only
          have := List.takeWhile_append_dropWhile (· != d) (cstr_at st.buf s1)
          rw [← hv2, h2v, List.append_nil] at this
          exact this.symm
        · simp only
          rw [h2v, ← hv2, h2v]
          rfl
      · rw [if_neg h2]
        refine ⟨by simp, s1, rfl, ?_, ?_⟩
        · simp only
          rw [cstr_at_set_cut _ _ _ hk2le, hk2, take_length_takeWhile]
        · simp only
          rw [cstr_at_set_of_lt _ _ _ _ (by omega), ← hv2]
          have h2v : cstr_at st.buf (s1 + strcspn st.buf s1 d) ≠ [] :=
            fun h => h2 ((char_at_eq_NUL_iff _ _).2 h)
          rw [cstr_at_add _ _ 1 (by
            cases hx : cstr_at st.buf (s1 + strcspn st.buf s1 d) with
            | nil => exact absurd hx h2v
            | cons _ _ => simp)]


/-! ## Lemmas on the tokens and on the scan -/

theorem splitOnP_space (v : CStr) :
    v.splitOnP (· == ' ') =
      v.takeWhile (· != ' ') ::
        (match v.dropWhile (· != ' ') with
          | [] => []
          | _ :: r => r.splitOnP (· == ' ')) := by
  induction v with
  | nil => rfl
  | cons a v ih =>
    rw [List.splitOnP_cons]
    by_cases h : a = ' '
    · subst h
      simp [List.takeWhile_cons, List.dropWhile_cons]
    · have h1 : (a == ' ') = false := by simpa using h
      have h2 : (a != ' ') = true := by simpa using h
      rw [h1, ih]
      simp [List.takeWhile_cons, List.dropWhile_cons, h2]

theorem tokens_nil : tokens [] = [] := by decide

theorem tokens_space (v : CStr) : tokens (' ' :: v) = tokens v := by
  simp [tokens, List.splitOn, List.splitOnP_cons]

theorem tokens_cons_ne (c : Char) (v : CStr) (hc : c ≠ ' ') :
    tokens (c :: v) =
      (c :: v).takeWhile (· != ' ') :: tokens (((c :: v).dropWhile (· != ' ')).drop 1) := by
  have h2 : (c != ' ') = true := by simpa using hc
  unfold tokens List.splitOn
  rw [splitOnP_space (c :: v)]
  have hne : (c :: v).takeWhile (· != ' ') ≠ [] := by simp [List.takeWhile_cons, h2]
  rw [List.filter_cons_of_pos (by simpa using hne)]
  congr 1
  cases (c :: v).dropWhile (· != ' ') with
  | nil => simp
  | cons x r => simp

theorem tokens_next (v : CStr) :
    tokens v = match next_token ' ' v with
      | none => []
      | some (w, rest) => w :: tokens rest := by
  induction v with
  | nil => rfl
  | cons a v ih =>
    by_cases h : a = ' '
    · subst h
      rw [tokens_space, ih]
      simp [next_token, List.dropWhile_cons]
    · have h1 : (a == ' ') = false := by simpa using h
      rw [tokens_cons_ne a v h]
      simp [next_token, List.dropWhile_cons, h1]

theorem tokens_dropWhile (v : CStr) : tokens (v.dropWhile (· == ' ')) = tokens v := by
  induction v with
  | nil => rfl
  | cons a v ih =>
    by_cases h : a = ' '
    · subst h
      rw [tokens_space]
      simpa [List.dropWhile_cons] using ih
    · have h1 : (a == ' ') = false := by simpa using h
      simp [List.dropWhile_cons, h1]

theorem tokens_length_le : ∀ (n : Nat) (v : CStr), v.length ≤ n → (tokens v).length ≤ v.length := by
  intro n
  induction n with
  | zero =>
    intro v hv
    have : v = [] := List.length_eq_zero.1 (by omega)
    subst this
    simp [tokens_nil]
  | succ n ih =>
    intro v hv
    cases v with
    | nil => simp [tokens_nil]
    | cons a v =>
      by_cases h : a = ' '
      · subst h
        rw [tokens_space]
        have := ih v (by simpa using hv)
        simp
        omega
      · have h2 : (a != ' ') = true := by simpa using h
        rw [tokens_cons_ne a v h]
        have hsub : (((a :: v).dropWhile (· != ' ')).drop 1).length ≤ v.length := by
          have h3 : (a :: v).dropWhile (· != ' ') = v.dropWhile (· != ' ') := by
            simp [List.dropWhile_cons, h2]
          rw [h3]
          have := (List.dropWhile_sublist (· != ' ') (l := v)).length_le
          simp
          omega
        have := ih (((a :: v).dropWhile (· != ' ')).drop 1) (by simp at hv; omega)
        simp only [List.length_cons]
        omega

theorem cstr_at_length_le (buf : List Char) (p : Nat) : (cstr_at buf p).length ≤ buf.length := by
  unfold cstr_at
  have h1 := (List.takeWhile_sublist (· != NUL) (l := buf.drop p)).length_le
  have h2 := (List.drop_sublist p buf).length_le
  omega

theorem next_token_suffix (d : Char) (v w rest : CStr)
    (h : next_token d v = some (w, rest)) : rest <:+ v := by
  unfold next_token at h
  cases hv : v.dropWhile (· == d) with
  | nil => rw [hv] at h; simp at h
  | cons c cs =>
    rw [hv] at h
    simp only [Option.some.injEq, Prod.mk.injEq] at h
    rw [← h.2, ← hv]
    exact ((List.drop_suffix 1 _).trans (List.dropWhile_suffix _)).trans
      (List.dropWhile_suffix _)

/-- After any call of `strtok` with the space as delimiter, the token
returned and the tokens still ahead are the tokens of the string scanned,
and the string left is an end piece of the string scanned. -/
theorem strtok_space_step (st : TokState) (s : Option Nat) :
    (match (strtok st s ' ').1 with
      | none => []
      | some t => cstr_at (strtok st s ' ').2.buf t ::
          tokens (cstr_at (strtok st s ' ').2.buf (strtok st s ' ').2.save)) =
      tokens (cstr_at st.buf (s.getD st.save)) ∧
    ((strtok st s ' ').1 = none →
      cstr_at (strtok st s ' ').2.buf (strtok st s ' ').2.save = []) ∧
    (strtok st s ' ').2.buf.length = st.buf.length ∧
    cstr_at (strtok st s ' ').2.buf (strtok st s ' ').2.save <:+
      cstr_at st.buf (s.getD st.save) := by
  obtain ⟨hlen, hspec⟩ := strtok_spec st s ' ' (by decide)
  rw [tokens_next (cstr_at st.buf (s.getD st.save))]
  cases hn : next_token ' ' (cstr_at st.buf (s.getD st.save)) with
  | none =>
    rw [hn] at hspec
    simp only at hspec
    refine ⟨?_, fun _ => hspec.2, hlen, ?_⟩
    · rw [hspec.1]
    · rw [hspec.2]
      exact List.nil_suffix
  | some wr =>
    obtain ⟨w, rest⟩ := wr
    rw [hn] at hspec
    simp only at hspec
    obtain ⟨t, ht, hw, hrest⟩ := hspec
    refine ⟨?_, fun h => ?_, hlen, ?_⟩
    · rw [ht]
      simp only
      rw [hw, hrest]
    · rw [ht] at h
      cases h
    · rw [hrest]
      exact next_token_suffix _ _ _ _ hn

theorem scan_rest_lt (rest : List CStr) :
    scan_rest (['<'] :: rest) =
      match rest with
      | [] => []
      | _ :: r => scan_rest r := by
  cases rest <;> simp [scan_rest]

theorem scan_rest_gt (rest : List CStr) :
    scan_rest (['>'] :: rest) =
      match rest with
      | [] => []
      | _ :: r => scan_rest r := by
  cases rest <;> simp [scan_rest]

theorem scan_rest_amp (rest : List CStr) : scan_rest (['&'] :: rest) = rest := by
  cases rest <;> simp [scan_rest]

theorem scan_rest_word (w : CStr) (rest : List CStr)
    (h1 : w ≠ ['<']) (h2 : w ≠ ['>']) (h3 : w ≠ ['&']) :
    scan_rest (w :: rest) = scan_rest rest := by
  cases rest <;> simp [scan_rest, h1, h2, h3]

theorem scan_tokens_lt (rest : List CStr) (s : Stage) :
    scan_tokens (['<'] :: rest) s =
      match rest with
      | [] => s
      | f :: r => scan_tokens r { s with input_file := some f } := by
  cases rest <;> simp [scan_tokens]

theorem scan_tokens_gt (rest : List CStr) (s : Stage) :
    scan_tokens (['>'] :: rest) s =
      match rest with
      | [] => s
      | f :: r => scan_tokens r { s with output_file := some f } := by
  cases rest <;> simp [scan_tokens]

theorem scan_tokens_amp (rest : List CStr) (s : Stage) :
    scan_tokens (['&'] :: rest) s = { s with background := 1 } := by
  cases rest <;> simp [scan_tokens]

theorem scan_tokens_word (w : CStr) (rest : List CStr) (s : Stage)
    (h1 : w ≠ ['<']) (h2 : w ≠ ['>']) (h3 : w ≠ ['&']) :
    scan_tokens (w :: rest) s = scan_tokens rest { s with args := s.args ++ [w] } := by
  cases rest <;> simp [scan_tokens, h1, h2, h3]

theorem scan_tokens_args_le : ∀ (n : Nat) (ts : List CStr) (s : Stage), ts.length ≤ n →
    s.args.length ≤ (scan_tokens ts s).args.length := by
  intro n
  induction n with
  | zero =>
    intro ts s h
    have : ts = [] := List.length_eq_zero.1 (by omega)
    subst this
    simp [scan_tokens]
  | succ n ih =>
    intro ts s h
    cases ts with
    | nil => simp [scan_tokens]
    | cons w rest =>
      simp only [List.length_cons] at h
      by_cases h1 : w = ['<']
      · subst h1
        rw [scan_tokens_lt]
        cases rest with
        | nil => simp
        | cons f r =>
          simp only [List.length_cons] at h
          exact ih r { s with input_file := some f } (by omega)
      · by_cases h2 : w = ['>']
        · subst h2
          rw [scan_tokens_gt]
          cases rest with
          | nil => simp
          | cons f r =>
            simp only [List.length_cons] at h
            exact ih r { s with output_file := some f } (by omega)
        · by_cases h3 : w = ['&']
          · subst h3
            rw [scan_tokens_amp]
          · rw [scan_tokens_word w rest s h1 h2 h3]
            have := ih rest { s with args := s.args ++ [w] } (by omega)
            simp at this
            omega

theorem toCommand_push (s : Stage) (w : CStr) (h : s.args.length < MAX_ARGS) :
    s.toCommand.args.set s.toCommand.arg_count (some w) =
      (Stage.toCommand { s with args := s.args ++ [w] }).args := by
  simp only [Stage.toCommand]
  rw [List.set_append_right _ _ (by simp)]
  simp only [List.length_map, Nat.sub_self, List.map_append, List.map_cons, List.map_nil,
    List.length_append, List.length_cons, List.length_nil, List.append_assoc]
  congr 1
  obtain ⟨k, hk⟩ : ∃ k, MAX_ARGS - s.args.length = k + 1 := ⟨MAX_ARGS - s.args.length - 1, by omega⟩
  have hk2 : MAX_ARGS - (s.args.length + (0 + 1)) = k := by omega
  rw [hk, hk2]
  simp [List.replicate_succ]

theorem toCommand_terminate (s : Stage) (h : s.args.length < MAX_ARGS) :
    s.toCommand.args.set s.toCommand.arg_count none = s.toCommand.args := by
  simp only [Stage.toCommand]
  rw [List.set_append_right _ _ (by simp)]
  simp only [List.length_map, Nat.sub_self]
  congr 1
  obtain ⟨k, hk⟩ : ∃ k, MAX_ARGS - s.args.length = k + 1 := ⟨MAX_ARGS - s.args.length - 1, by omega⟩
  rw [hk]
  simp [List.replicate_succ]


/-! ## The parser computes the scan -/

theorem parse_loop_spec : ∀ (fuel : Nat) (st : TokState) (token : Option Nat) (s : Stage)
    (ts : List CStr),
    ts = (match token with
      | none => []
      | some t => cstr_at st.buf t :: tokens (cstr_at st.buf st.save)) →
    (token = none → cstr_at st.buf st.save = []) →
    ts.length < fuel →
    (scan_tokens ts s).args.length < MAX_ARGS - 1 →
    ∃ st', parse_loop fuel st token s.toCommand = .ok (st', (scan_tokens ts s).toCommand) ∧
      st'.buf.length = st.buf.length ∧
      ((scan_tokens ts s).background = 0 → cstr_at st'.buf st'.save = []) ∧
      cstr_at st'.buf st'.save <:+ cstr_at st.buf st.save ∧
      tokens (cstr_at st'.buf st'.save) = scan_rest ts := by
  intro fuel
  induction fuel with
  | zero => intro st token s ts _ _ h; omega
  | succ fuel ih =>
    intro st token s ts hts hnone hfuel hargs
    cases token with
    | none =>
      simp only at hts
      subst hts
      exact ⟨st, by rw [parse_loop]; simp [scan_tokens], rfl, fun _ => hnone rfl,
        List.suffix_refl _, by rw [hnone rfl]; rfl⟩
    | some t =>
      simp only at hts
      have hguard : s.toCommand.arg_count < MAX_ARGS - 1 :=
        Nat.lt_of_le_of_lt (scan_tokens_args_le ts.length ts s (Nat.le_refl _)) hargs
      obtain ⟨h1, h1n, h1l, h1s⟩ := strtok_space_step st none
      obtain ⟨h2, h2n, h2l, h2s⟩ := strtok_space_step (strtok st none ' ').2 none
      simp only [Option.getD_none] at h1 h2 h1s h2s
      rw [parse_loop]
      simp only
      rw [if_pos hguard]
      by_cases hlt : cstr_at st.buf t = ['<']
      · rw [if_pos hlt]
        rw [hlt, ← h1] at hts
        cases hr : (strtok st none ' ').1 with
        | none =>
          rw [hr] at hts
          simp only at hts
          have hv := h1n hr
          rw [hv, tokens_nil] at h2
          subst hts
          rw [scan_tokens_lt] at hargs ⊢
          simp only at hargs ⊢
          obtain ⟨st', he, hl, hb, hsf, hrs⟩ := ih (strtok (strtok st none ' ').2 none ' ').2
            (strtok (strtok st none ' ').2 none ' ').1 s [] h2.symm h2n (by simp only [List.length_cons, List.length_nil] at hfuel ⊢; omega)
            (by simpa [scan_tokens] using hargs)
          refine ⟨st', ?_, by rw [hl, h2l, h1l], ?_, (hsf.trans h2s).trans h1s, ?_⟩
          · rw [he]; simp [scan_tokens]
          · simpa [scan_tokens] using hb
          · rw [hrs]; simp [scan_rest]
        | some f =>
          rw [hr] at hts
          simp only at hts
          subst hts
          rw [scan_tokens_lt] at hargs ⊢
          simp only at hargs ⊢
          obtain ⟨st', he, hl, hb, hsf, hrs⟩ := ih (strtok (strtok st none ' ').2 none ' ').2
            (strtok (strtok st none ' ').2 none ' ').1
            { s with input_file := some (cstr_at (strtok st none ' ').2.buf f) }
            _ h2.symm h2n (by simp only [List.length_cons, List.length_nil] at hfuel ⊢; omega) hargs
          exact ⟨st', he, by rw [hl, h2l, h1l], hb, (hsf.trans h2s).trans h1s, by
            rw [hrs, scan_rest_lt]⟩
      · rw [if_neg hlt]
        by_cases hgt : cstr_at st.buf t = ['>']
        · rw [if_pos hgt]
          rw [hgt, ← h1] at hts
          cases hr : (strtok st none ' ').1 with
          | none =>
            rw [hr] at hts
            simp only at hts
            have hv := h1n hr
            rw [hv, tokens_nil] at h2
            subst hts
            rw [scan_tokens_gt] at hargs ⊢
            simp only at hargs ⊢
            obtain ⟨st', he, hl, hb, hsf, hrs⟩ := ih (strtok (strtok st none ' ').2 none ' ').2
              (strtok (strtok st none ' ').2 none ' ').1 s [] h2.symm h2n
              (by simp only [List.length_cons, List.length_nil] at hfuel ⊢; omega)
              (by simpa [scan_tokens] using hargs)
            refine ⟨st', ?_, by rw [hl, h2l, h1l], ?_, (hsf.trans h2s).trans h1s, ?_⟩
            · rw [he]; simp [scan_tokens]
            · simpa [scan_tokens] using hb
            · rw [hrs]; simp [scan_rest]
          | some f =>
            rw [hr] at hts
            simp only at hts
            subst hts
            rw [scan_tokens_gt] at hargs ⊢
            simp only at hargs ⊢
            obtain ⟨st', he, hl, hb, hsf, hrs⟩ := ih (strtok (strtok st none ' ').2 none ' ').2
              (strtok (strtok st none ' ').2 none ' ').1
              { s with output_file := some (cstr_at (strtok st none ' ').2.buf f) }
              _ h2.symm h2n
              (by simp only [List.length_cons, List.length_nil] at hfuel ⊢; omega) hargs
            exact ⟨st', he, by rw [hl, h2l, h1l], hb, (hsf.trans h2s).trans h1s, by
            rw [hrs, scan_rest_gt]⟩
        · rw [if_neg hgt]
          by_cases hamp : cstr_at st.buf t = ['&']
          · rw [if_pos hamp]
            rw [hamp] at hts
            subst hts
            rw [scan_tokens_amp, scan_rest_amp]
            exact ⟨st, rfl, rfl, fun h => by simp at h, List.suffix_refl _, rfl⟩
          · rw [if_neg hamp]
            subst hts
            rw [scan_tokens_word _ _ _ hlt hgt hamp] at hargs ⊢
            have hpush := toCommand_push s (cstr_at st.buf t)
              (by simp only [Stage.toCommand, MAX_ARGS] at hguard ⊢; omega)
            obtain ⟨st', he, hl, hb, hsf, hrs⟩ := ih (strtok st none ' ').2 (strtok st none ' ').1
              { s with args := s.args ++ [cstr_at st.buf t] } _ h1.symm h1n
              (by simp only [List.length_cons, List.length_nil] at hfuel ⊢; omega) hargs
            refine ⟨st', ?_, by rw [hl, h1l], hb, hsf.trans h1s, by
              rw [hrs, scan_rest_word _ _ hlt hgt hamp]⟩
            rw [← he, hpush]
            simp [Stage.toCommand]

theorem zero_eq_toCommand : Command.zero = (Stage.toCommand ⟨[], none, none, 0⟩) := by decide

/-- The result of `parse_command` on a zeroed `Command`, at any offset of any buffer:
the scan of the tokens of the string found there. -/
theorem parse_command_spec (st : TokState) (p : Nat)
    (hargs : (scan_tokens (tokens (cstr_at st.buf p)) ⟨[], none, none, 0⟩).args.length
      < MAX_ARGS - 1) :
    ∃ st', parse_command st p Command.zero =
        .ok (st', (scan_tokens (tokens (cstr_at st.buf p)) ⟨[], none, none, 0⟩).toCommand) ∧
      st'.buf.length = st.buf.length ∧
      ((scan_tokens (tokens (cstr_at st.buf p)) ⟨[], none, none, 0⟩).background = 0 →
        cstr_at st'.buf st'.save = []) ∧
      cstr_at st'.buf st'.save <:+ cstr_at st.buf p ∧
      tokens (cstr_at st'.buf st'.save) = scan_rest (tokens (cstr_at st.buf p)) := by
  have hk := strspn_eq st.buf p ' ' (by decide)
  have hv : cstr_at st.buf (p + strspn st.buf p ' ') =
      (cstr_at st.buf p).dropWhile (· == ' ') := by
    rw [cstr_at_add _ _ _ (by rw [hk]; exact (List.takeWhile_sublist _).length_le), hk,
      drop_length_takeWhile]
  obtain ⟨h1, h1n, h1l, h1s⟩ := strtok_space_step st (some (p + strspn st.buf p ' '))
  simp only [Option.getD_some] at h1 h1s
  rw [hv, tokens_dropWhile] at h1
  rw [hv] at h1s
  have hfuel : (tokens (cstr_at st.buf p)).length <
      (strtok st (some (p + strspn st.buf p ' ')) ' ').2.buf.length + 1 := by
    have a1 := tokens_length_le _ (cstr_at st.buf p) (Nat.le_refl _)
    have a2 := cstr_at_length_le st.buf p
    omega
  obtain ⟨st', he, hl, hb, hsf, hrs⟩ :=
    parse_loop_spec _ _ _ ⟨[], none, none, 0⟩ _ h1.symm h1n hfuel hargs
  refine ⟨st', ?_, by rw [hl, h1l], hb, (hsf.trans h1s).trans (List.dropWhile_suffix _), hrs⟩
  unfold parse_command
  simp only
  rw [zero_eq_toCommand, ← h1l, he]
  simp only
  rw [toCommand_terminate _ (by simp only [MAX_ARGS] at hargs ⊢; omega)]


/-! ## A line that is one `set` stage -/

theorem cstr_at_zero (stage : CStr) (h : NUL ∉ stage) : cstr_at stage 0 = stage := by
  unfold cstr_at
  rw [List.drop_zero, List.takeWhile_eq_self_iff]
  intro c hc
  have : c ≠ NUL := fun h' => h (h' ▸ hc)
  simpa using this

theorem scan_tokens_args_mem : ∀ (n : Nat) (ts : List CStr) (s : Stage), ts.length ≤ n →
    ∀ a ∈ (scan_tokens ts s).args, a ∈ s.args ∨ a ∈ ts := by
  intro n
  induction n with
  | zero =>
    intro ts s h a ha
    have : ts = [] := List.length_eq_zero.1 (by omega)
    subst this
    exact Or.inl (by simpa [scan_tokens] using ha)
  | succ n ih =>
    intro ts s h a ha
    cases ts with
    | nil => exact Or.inl (by simpa [scan_tokens] using ha)
    | cons w rest =>
      simp only [List.length_cons] at h
      by_cases h1 : w = ['<']
      · subst h1
        rw [scan_tokens_lt] at ha
        cases rest with
        | nil => exact Or.inl ha
        | cons f r =>
          simp only [List.length_cons] at h
          rcases ih r { s with input_file := some f } (by omega) a ha with h' | h'
          · exact Or.inl h'
          · exact Or.inr (by simp [h'])
      · by_cases h2 : w = ['>']
        · subst h2
          rw [scan_tokens_gt] at ha
          cases rest with
          | nil => exact Or.inl ha
          | cons f r =>
            simp only [List.length_cons] at h
            rcases ih r { s with output_file := some f } (by omega) a ha with h' | h'
            · exact Or.inl h'
            · exact Or.inr (by simp [h'])
        · by_cases h3 : w = ['&']
          · subst h3
            rw [scan_tokens_amp] at ha
            exact Or.inl ha
          · rw [scan_tokens_word w rest s h1 h2 h3] at ha
            rcases ih rest { s with args := s.args ++ [w] } (by omega) a ha with h' | h'
            · simp only [List.mem_append, List.mem_singleton] at h'
              rcases h' with h' | h'
              · exact Or.inl h'
              · exact Or.inr (by simp [h'])
            · exact Or.inr (by simp [h'])

theorem tokens_chars : ∀ (n : Nat) (v : CStr), v.length ≤ n →
    ∀ w ∈ tokens v, ∀ c ∈ w, c ∈ v := by
  intro n
  induction n with
  | zero =>
    intro v hv w hw
    have : v = [] := List.length_eq_zero.1 (by omega)
    subst this
    simp [tokens_nil] at hw
  | succ n ih =>
    intro v hv w hw c hc
    cases v with
    | nil => simp [tokens_nil] at hw
    | cons a v =>
      by_cases h : a = ' '
      · subst h
        rw [tokens_space] at hw
        exact List.mem_cons_of_mem _ (ih v (by simpa using hv) w hw c hc)
      · rw [tokens_cons_ne a v h] at hw
        simp only [List.mem_cons] at hw
        rcases hw with rfl | hw
        · exact (List.takeWhile_sublist _).subset hc
        · have hsuf : ((a :: v).dropWhile (· != ' ')).drop 1 <:+ v := by
            have h2 : (a != ' ') = true := by simpa using h
            have h3 : (a :: v).dropWhile (· != ' ') = v.dropWhile (· != ' ') := by
              simp [List.dropWhile_cons, h2]
            rw [h3]
            exact (List.drop_suffix 1 _).trans (List.dropWhile_suffix _)
          have hlen := hsuf.sublist.length_le
          have := ih _ (by simp at hv; omega) w hw c hc
          exact List.mem_cons_of_mem _ (hsuf.sublist.subset this)

theorem tokens_nil_spaces (v : CStr) (h : tokens v = []) : ∀ c ∈ v, c = ' ' := by
  induction v with
  | nil => simp
  | cons a v ih =>
    by_cases ha : a = ' '
    · subst ha
      rw [tokens_space] at h
      intro c hc
      simp only [List.mem_cons] at hc
      rcases hc with rfl | hc
      · rfl
      · exact ih h c hc
    · rw [tokens_cons_ne a v ha] at h
      simp at h

theorem getLast?_suffix {α : Type} (l1 l2 : List α) (h : l1 <:+ l2) (hne : l1 ≠ []) :
    l1.getLast? = l2.getLast? := by
  obtain ⟨t, rfl⟩ := h
  cases l1 with
  | nil => exact absurd rfl hne
  | cons a l =>
    rw [List.getLast?_append, List.getLast?_cons]
    rfl

theorem isspace_dollar : isspace '$' = false := by decide

theorem isspace_s : isspace 's' = false := by decide

/-- A line whose scan names the command `set` is not blank. -/
theorem set_line_not_blank (env : Env) (command : CStr) (operands : List CStr)
    (hscan : (scan_tokens (tokens (expand_spec env command)) Stage.empty).args =
      ['s', 'e', 't'] :: operands) :
    command.all isspace = false := by
  by_contra hb
  have hall : ∀ c ∈ command, isspace c = true := by
    simpa [List.all_eq_true] using hb
  have hd : '$' ∉ command := fun h => by
    have := hall _ h
    rw [isspace_dollar] at this
    cases this
  rw [expand_spec_no_dollar env command hd] at hscan
  have hmem : (['s', 'e', 't'] : CStr) ∈ (scan_tokens (tokens command) Stage.empty).args := by
    rw [hscan]
    simp
  rcases scan_tokens_args_mem _ _ _ (Nat.le_refl _) _ hmem with h | h
  · simp [Stage.empty] at h
  · have := hall _ (tokens_chars _ _ (Nat.le_refl _) _ h 's' (by simp))
    rw [isspace_s] at this
    cases this

theorem next_token_pipe (e : CStr) (hpipe : '|' ∉ e) (hne : e ≠ []) :
    next_token '|' e = some (e, []) := by
  have h1 : e.dropWhile (· == '|') = e := by
    cases e with
    | nil => rfl
    | cons a l =>
      have : a ≠ '|' := fun h => hpipe (by simp [h])
      simp [List.dropWhile_cons, this]
  have h2 : e.takeWhile (· != '|') = e := by
    rw [List.takeWhile_eq_self_iff]
    intro c hc
    have : c ≠ '|' := fun h => hpipe (h ▸ hc)
    simpa using this
  have h3 : e.dropWhile (· != '|') = [] := by
    rw [List.dropWhile_eq_nil_iff]
    intro c hc
    have : c ≠ '|' := fun h => hpipe (h ▸ hc)
    simpa using this
  unfold next_token
  rw [h1]
  cases e with
  | nil => exact absurd rfl hne
  | cons a l =>
    simp only
    rw [h2, h3]
    rfl

theorem zero_slot : (List.replicate MAX_COMMANDS Command.zero).getD 0 Command.zero = Command.zero := by
  decide

/-- The splitting loop on a pipe-free line whose scan reads every token:
one Command, the scan of the line. -/
theorem split_stages_single (e : CStr) (hstr : NUL ∉ e) (hpipe : '|' ∉ e) (hne : e ≠ [])
    (hargs : (scan_tokens (tokens e) Stage.empty).args.length < MAX_ARGS - 1)
    (hrest : scan_rest (tokens e) = [])
    (hend : (scan_tokens (tokens e) Stage.empty).background = 0 ∨ e.getLast? = some '&') :
    split_stages e =
      .ok ((List.replicate MAX_COMMANDS Command.zero).set 0
        (scan_tokens (tokens e) Stage.empty).toCommand, 1) := by
  obtain ⟨_, hspec⟩ := strtok_spec ⟨e, 0⟩ (some 0) '|' (by decide)
  simp only [Option.getD_some] at hspec
  rw [cstr_at_zero e hstr, next_token_pipe e hpipe hne] at hspec
  simp only at hspec
  obtain ⟨t, ht, hw, _⟩ := hspec
  obtain ⟨st1, he, _, hb, hsf, hrs⟩ := parse_command_spec (strtok ⟨e, 0⟩ (some 0) '|').2 t (by
    rw [hw]
    exact hargs)
  rw [hw] at he hb hsf hrs
  have hview : cstr_at st1.buf st1.save = [] := by
    rcases hend with h0 | hlast
    · exact hb h0
    · by_contra hv
      rw [hrest] at hrs
      have hsp := tokens_nil_spaces _ hrs
      have hl := getLast?_suffix _ _ hsf hv
      rw [hlast] at hl
      obtain ⟨ys, hys⟩ := List.getLast?_eq_some_iff.1 hl
      have := hsp '&' (by rw [hys]; simp)
      cases this
  obtain ⟨_, hspec2⟩ := strtok_spec st1 none '|' (by decide)
  simp only [Option.getD_none] at hspec2
  rw [hview] at hspec2
  have hnone : (strtok st1 none '|').1 = none := hspec2.1
  unfold split_stages
  simp only
  rw [ht, show MAX_COMMANDS = 9 + 1 from rfl, split_loop]
  simp only
  rw [show (List.replicate (9 + 1) Command.zero).getD 0 Command.zero = Command.zero from zero_slot,
    he]
  simp only
  rw [hnone, show (9 : Nat) = 8 + 1 from rfl, split_loop]
  rfl

/-- The dispatch of a single Command whose first word is `set`. -/
theorem dispatch_set_stage (fs : FileSystem) (env : Env) (s : Stage) (operands : List CStr)
    (hargs : s.args = ['s', 'e', 't'] :: operands) :
    (operands.length < 2 →
      dispatch fs env ((List.replicate MAX_COMMANDS Command.zero).set 0 s.toCommand) 1 =
        .ok (env, .set)) ∧
    (∀ name value rest, operands = name :: value :: rest →
      dispatch fs env ((List.replicate MAX_COMMANDS Command.zero).set 0 s.toCommand) 1 =
        .ok (set_env_var env name value, .set)) := by
  have hc0 : ((List.replicate MAX_COMMANDS Command.zero).set 0 s.toCommand).getD 0 Command.zero =
      s.toCommand := by
    simp [List.replicate_succ]
  have h1 : (['s', 'e', 't'] : CStr) ≠ ['c', 'd'] := by decide
  have h2 : (['s', 'e', 't'] : CStr) ≠ ['p', 'w', 'd'] := by decide
  have ha0 : s.toCommand.args.getD 0 none = some ['s', 'e', 't'] := by
    simp [Stage.toCommand, hargs]
  have hcount : s.toCommand.arg_count = operands.length + 1 := by
    simp [Stage.toCommand, hargs]
  constructor
  · intro hlt
    unfold dispatch
    simp only [if_true, hc0]
    rw [ha0]
    simp only [if_neg h1, if_neg h2, if_true, hcount]
    rw [if_neg (by omega)]
  · intro name value rest hops
    subst hops
    have ha1 : s.toCommand.args.getD 1 none = some name := by
      simp [Stage.toCommand, hargs]
    have ha2 : s.toCommand.args.getD 2 none = some value := by
      simp [Stage.toCommand, hargs]
    unfold dispatch
    simp only [if_true, hc0]
    rw [ha0]
    simp only [if_neg h1, if_neg h2, if_true, hcount]
    rw [if_pos (by simp), ha1, ha2]


/-! ## The claims -/

theorem takeWhile_name_self (name : CStr) (h : ∀ c ∈ name, is_name_char c = true) :
    name.takeWhile is_name_char = name := by
  rw [List.takeWhile_eq_self_iff]
  exact h

theorem dropWhile_name_nil (name : CStr) (h : ∀ c ∈ name, is_name_char c = true) :
    name.dropWhile is_name_char = [] := by
  rw [List.dropWhile_eq_nil_iff]
  exact h

/-- Expanding the text `$NAME`: the stored value of `NAME`, or nothing. -/
theorem replace_dollar_name (env : Env) (name : CStr)
    (hname : ∀ c ∈ name, is_name_char c = true) (hlen : name.length ≤ 63)
    (hval : ∀ v, get_env_var env name = some v → v.length ≤ 255) :
    replace_env_vars env ('$' :: name) = .ok ((get_env_var env name).getD []) := by
  have hexp : expand_spec env ('$' :: name) = (get_env_var env name).getD [] := by
    rw [expand_spec_dollar, takeWhile_name_self name hname, dropWhile_name_nil name hname,
      get_env_var_eq_stored]
    simp [expand_spec, segments]
  have hvn : var_names ('$' :: name) = [name] := by
    rw [var_names_dollar, takeWhile_name_self name hname, dropWhile_name_nil name hname]
    simp [var_names, segments]
  rw [← hexp]
  apply replace_env_vars_eq_spec
  · intro n hn
    rw [hvn] at hn
    simp only [List.mem_singleton] at hn
    rw [hn]
    exact hlen
  · rw [hexp]
    cases hg : get_env_var env name with
    | none => simp
    | some v =>
      have := hval v hg
      simp only [Option.getD_some, MAX_COMMAND_LENGTH]
      omega

theorem toCommand_terminated (s : Stage) (h : s.args.length < MAX_ARGS) :
    s.toCommand.args.take s.toCommand.arg_count = s.args.map some ∧
    s.toCommand.args.getD s.toCommand.arg_count (some []) = none := by
  constructor
  · simp [Stage.toCommand, List.take_append_eq_append_take]
  · obtain ⟨k, hk⟩ : ∃ k, MAX_ARGS - s.args.length = k + 1 :=
      ⟨MAX_ARGS - s.args.length - 1, by omega⟩
    simp only [Stage.toCommand, List.getD_eq_getElem?_getD]
    rw [List.getElem?_append_right (by simp), hk]
    simp [List.replicate_succ]

/-- C1 (the code departs from it): on the line `echo hello | cat` the
stage-splitting loop of `process_command` ends with `cmd_count = 1`; the only
Command is the parse of `echo hello`, and the stage `cat` is never parsed,
because `parse_command` moved the saved position of `strtok`. -/
theorem split_two_stages_yields_one :
    split_stages "echo hello | cat".toList =
      .ok ((List.replicate MAX_COMMANDS Command.zero).set 0
        (Stage.toCommand ⟨["echo".toList, "hello".toList], none, none, 0⟩), 1) := by
  decide

/-- C2: in a store that holds `name` or has room for one more entry, for a
non-empty `name` of at most 63 letters, digits and underscores and a
`value` of at most 255 characters, `set_env_var` followed by
`replace_env_vars` on the text `$name` yields exactly `value`. -/
theorem expand_after_set_var (env : Env) (name value : CStr)
    (hroom : (∃ e ∈ env, e.name = name) ∨ env.length < MAX_ENV_VARS)
    (_hne : name ≠ []) (hname : ∀ c ∈ name, is_name_char c = true)
    (hlen : name.length ≤ 63) (hval : value.length ≤ 255) :
    replace_env_vars (set_env_var env name value) ('$' :: name) = .ok value := by
  have hget := get_after_set env name value hroom hlen
  rw [List.take_of_length_le hval] at hget
  rw [replace_dollar_name _ name hname hlen, hget]
  · rfl
  · intro v hv
    rw [hget] at hv
    cases hv
    exact hval

theorem expand_after_set_var_witness :
    replace_env_vars (set_env_var [⟨['B'], ['0']⟩] ['A', '_', '1'] ['x', 'y']) ['$', 'A', '_', '1'] =
      .ok ['x', 'y'] :=
  expand_after_set_var [⟨['B'], ['0']⟩] ['A', '_', '1'] ['x', 'y'] (Or.inr (by decide)) (by decide)
    (by decide) (by decide) (by decide)

/-- C3: in a store with pairwise distinct names, for a non-empty `name` of
at most 63 letters, digits and underscores, after `unset_env_var` the lookup
`get_env_var` finds nothing and `replace_env_vars` on the text `$name`
yields the empty string. -/
theorem expand_after_unset_var (env : Env) (name : CStr)
    (hnd : (env.map (·.name)).Nodup)
    (_hne : name ≠ []) (hname : ∀ c ∈ name, is_name_char c = true) (hlen : name.length ≤ 63) :
    get_env_var (unset_env_var env name) name = none ∧
    replace_env_vars (unset_env_var env name) ('$' :: name) = .ok [] := by
  have hget := get_after_unset env name hnd
  refine ⟨hget, ?_⟩
  rw [replace_dollar_name _ name hname hlen, hget]
  · rfl
  · intro v hv
    rw [hget] at hv
    cases hv

theorem expand_after_unset_var_witness :
    get_env_var (unset_env_var [⟨['A'], ['1']⟩, ⟨['B'], ['2']⟩] ['A']) ['A'] = none ∧
    replace_env_vars (unset_env_var [⟨['A'], ['1']⟩, ⟨['B'], ['2']⟩] ['A']) ['$', 'A'] = .ok [] :=
  expand_after_unset_var [⟨['A'], ['1']⟩, ⟨['B'], ['2']⟩] ['A'] (by decide) (by decide) (by decide)
    (by decide)

/-- C4 (the code departs from it): a name of 64 characters is stored cut to
63 characters but searched for uncut, so setting it twice from the empty
store gives a reachable store with two entries of the same name. -/
theorem long_name_is_stored_twice :
    Reachable (set_env_var (set_env_var [] (List.replicate 64 'A') ['1'])
      (List.replicate 64 'A') ['2']) ∧
    (set_env_var (set_env_var [] (List.replicate 64 'A') ['1'])
      (List.replicate 64 'A') ['2']).map (·.name) =
      [List.replicate 63 'A', List.replicate 63 'A'] ∧
    ¬ ((set_env_var (set_env_var [] (List.replicate 64 'A') ['1'])
      (List.replicate 64 'A') ['2']).map (·.name)).Nodup :=
  ⟨Reachable.set_var _ _ _ (Reachable.set_var _ _ _ Reachable.start), by decide, by decide⟩

/-- C5: for a stage string (no NUL inside) whose scan yields fewer than 63
argument words, `parse_command` on a zeroed `Command` returns the Command of
the left-to-right scan of its space-separated tokens: `<` and `>` take the
next token as input and output path (a later one replacing an earlier one,
none following changing nothing), `&` sets `background` and ends the scan,
every other token is appended to `args`; the first `arg_count` slots of
`args` are the words in order and slot `arg_count` is NULL. -/
theorem parse_command_scans_tokens (stage : CStr) (save : Nat) (hstr : NUL ∉ stage)
    (hargs : (scan_tokens (tokens stage) Stage.empty).args.length < 63) :
    ∃ st cmd, parse_command ⟨stage, save⟩ 0 Command.zero = .ok (st, cmd) ∧
      cmd = (scan_tokens (tokens stage) Stage.empty).toCommand ∧
      cmd.arg_count = (scan_tokens (tokens stage) Stage.empty).args.length ∧
      cmd.args.take cmd.arg_count = (scan_tokens (tokens stage) Stage.empty).args.map some ∧
      cmd.args.getD cmd.arg_count (some []) = none := by
  have hz := cstr_at_zero stage hstr
  obtain ⟨st, he, _, _⟩ := parse_command_spec ⟨stage, save⟩ 0 (by
    simp only [hz]
    exact hargs)
  simp only [hz] at he
  have ht := toCommand_terminated (scan_tokens (tokens stage) Stage.empty)
    (by simp only [MAX_ARGS]; omega)
  exact ⟨st, _, he, rfl, rfl, ht.1, ht.2⟩

theorem parse_command_scans_tokens_witness :
    ∃ st cmd, parse_command ⟨"  cat < a < in  > out -n & x".toList, 0⟩ 0 Command.zero = .ok (st, cmd) ∧
      cmd = (scan_tokens (tokens "  cat < a < in  > out -n & x".toList) Stage.empty).toCommand ∧
      cmd.arg_count = (scan_tokens (tokens "  cat < a < in  > out -n & x".toList) Stage.empty).args.length ∧
      cmd.args.take cmd.arg_count =
        (scan_tokens (tokens "  cat < a < in  > out -n & x".toList) Stage.empty).args.map some ∧
      cmd.args.getD cmd.arg_count (some []) = none :=
  parse_command_scans_tokens "  cat < a < in  > out -n & x".toList 0 (by decide) (by decide)

/-- C6: for a line whose variable names have at most 63 characters and whose
expansion fits the 1024-byte buffer, `replace_env_vars` returns the
concatenation of the `$`-free segments, unchanged, and of the stored value
(or nothing) for each `$` with the longest run of letters, digits and
underscores after it; a line with no `$` is returned unchanged, and
expanding it twice equals expanding it once. -/
theorem replace_env_vars_is_expansion (env : Env) (line : CStr)
    (hnames : ∀ n ∈ var_names line, n.length ≤ 63)
    (hfits : (expand_spec env line).length < MAX_COMMAND_LENGTH) :
    replace_env_vars env line = .ok (expand_spec env line) ∧
    ('$' ∉ line →
      replace_env_vars env line = .ok line ∧
      (replace_env_vars env line).bind (replace_env_vars env) = replace_env_vars env line) := by
  have h := replace_env_vars_eq_spec env line hnames hfits
  refine ⟨h, fun hd => ?_⟩
  have hsame := expand_spec_no_dollar env line hd
  rw [hsame] at h
  exact ⟨h, by rw [h]; exact h⟩

theorem replace_env_vars_is_expansion_witness :
    replace_env_vars [⟨['A'], ['x', 'y']⟩] "a$A-$B$ $A_".toList =
      .ok (expand_spec [⟨['A'], ['x', 'y']⟩] "a$A-$B$ $A_".toList) ∧
    ('$' ∉ "a$A-$B$ $A_".toList →
      replace_env_vars [⟨['A'], ['x', 'y']⟩] "a$A-$B$ $A_".toList = .ok "a$A-$B$ $A_".toList ∧
      (replace_env_vars [⟨['A'], ['x', 'y']⟩] "a$A-$B$ $A_".toList).bind
        (replace_env_vars [⟨['A'], ['x', 'y']⟩]) =
        replace_env_vars [⟨['A'], ['x', 'y']⟩] "a$A-$B$ $A_".toList) :=
  replace_env_vars_is_expansion [⟨['A'], ['x', 'y']⟩] "a$A-$B$ $A_".toList (by decide) (by decide)

/-- C7 (the code departs from it): on the lines `<` and `&` the built-in
name comparison reads `commands[0].args[0]`, which is NULL; on the lines `|`
and `$X` (with `X` unset) `cmd_count` is 0 and `execute_pipeline` reads
`commands[-1].background`. -/
theorem process_command_reads_absent_element :
    process_command all_files [] ['<'] = .fault .null_deref ∧
    process_command all_files [] ['&'] = .fault .null_deref ∧
    process_command all_files [] ['|'] = .fault .out_of_range ∧
    process_command all_files [] ['$', 'X'] = .fault .out_of_range := by
  decide

/-- C8 (the code departs from it): in the two-stage pipeline made of
`echo hi > out.txt` and `cat < in.txt`, both files being openable, the child of
stage 0 calls `execv` with its standard output on the pipe and the child of
stage 1 with its standard input on the pipe, and neither file is opened,
whereas `execute_single_command` does bind the file.  The shell reaches this
pipeline on the line `echo hi > out.txt & cat < in.txt | x`. -/
theorem pipeline_ignores_redirection :
    execute_pipeline all_files
      [Stage.toCommand ⟨["echo".toList, "hi".toList], none, some "out.txt".toList, 0⟩,
       Stage.toCommand ⟨["cat".toList], some "in.txt".toList, none, 0⟩] 2 =
    .ok ([⟨.inherited, .pipe_write 0,
            (Stage.toCommand ⟨["echo".toList, "hi".toList], none, some "out.txt".toList, 0⟩).args⟩,
          ⟨.pipe_read 0, .inherited,
            (Stage.toCommand ⟨["cat".toList], some "in.txt".toList, none, 0⟩).args⟩], true) ∧
    (execute_single_command all_files
      (Stage.toCommand ⟨["echo".toList, "hi".toList], none, some "out.txt".toList, 0⟩)).1.stdout =
      .file "out.txt".toList ∧
    (execute_single_command all_files
      (Stage.toCommand ⟨["cat".toList], some "in.txt".toList, none, 0⟩)).1.stdin =
      .file "in.txt".toList ∧
    process_command all_files [] "echo hi > out.txt & cat < in.txt | x".toList =
      .ok ([], .run
        [⟨.inherited, .pipe_write 0,
            (Stage.toCommand ⟨["echo".toList, "hi".toList], none, some "out.txt".toList, 1⟩).args⟩,
          ⟨.pipe_read 0, .inherited,
            (Stage.toCommand ⟨["cat".toList], some "in.txt".toList, none, 0⟩).args⟩] true) := by
  decide

/-- C9 (as stated it fails): the line `set A B C` is a single stage named
`set` with three operands, and `process_command` changes the store; the
line `set A B & x` has no pipe character, the command name `set` and two
operands, and `process_command` hands two Commands to `execute_pipeline`
and leaves the store unchanged. -/
theorem set_line_counterexamples :
    split_stages "set A B C".toList =
      .ok ((List.replicate MAX_COMMANDS Command.zero).set 0
        (Stage.toCommand ⟨["set".toList, ['A'], ['B'], ['C']], none, none, 0⟩), 1) ∧
    process_command all_files [] "set A B C".toList = .ok ([⟨['A'], ['B']⟩], .set) ∧
    ([⟨['A'], ['B']⟩] : Env) ≠ [] ∧
    process_command all_files [] "set A B & x".toList =
      .ok ([], .run
        [⟨.inherited, .pipe_write 0,
            (Stage.toCommand ⟨["set".toList, ['A'], ['B']], none, none, 1⟩).args⟩,
          ⟨.pipe_read 0, .inherited, (Stage.toCommand ⟨[['x']], none, none, 0⟩).args⟩] true) := by
  decide

/-- C9 (amended): for every store and every line whose expansion is defined
(variable names of at most 63 characters, at most 1023 characters after
expansion), holds no pipe character, and whose space-separated tokens scan
to the command name `set` followed by `operands` (fewer than 63 words in
all), the scan reading every token and an `&` operator, if it meets one,
ending the line: `process_command` runs the built-in and never calls
`execute_pipeline`; with at least two operands the new store is
`set_env_var` of the first two, with fewer than two the store is unchanged. -/
theorem set_builtin_effect (fs : FileSystem) (env : Env) (command : CStr)
    (operands : List CStr)
    (hnames : ∀ n ∈ var_names command, n.length ≤ 63)
    (hfits : (expand_spec env command).length < MAX_COMMAND_LENGTH)
    (hstr : NUL ∉ expand_spec env command)
    (hpipe : '|' ∉ expand_spec env command)
    (hscan : (scan_tokens (tokens (expand_spec env command)) Stage.empty).args =
      ['s', 'e', 't'] :: operands)
    (hwords : operands.length + 1 < 63)
    (hrest : scan_rest (tokens (expand_spec env command)) = [])
    (hend : (scan_tokens (tokens (expand_spec env command)) Stage.empty).background = 0 ∨
      (expand_spec env command).getLast? = some '&') :
    (operands.length < 2 → process_command fs env command = .ok (env, .set)) ∧
    (∀ name value rest, operands = name :: value :: rest →
      process_command fs env command = .ok (set_env_var env name value, .set)) := by
  have hnb := set_line_not_blank env command operands hscan
  have hexp := replace_env_vars_eq_spec env command hnames hfits
  have hne : expand_spec env command ≠ [] := by
    intro h
    rw [h] at hscan
    simp [tokens_nil, scan_tokens, Stage.empty] at hscan
  have hargs : (scan_tokens (tokens (expand_spec env command)) Stage.empty).args.length <
      MAX_ARGS - 1 := by
    rw [hscan]
    simpa using hwords
  have hsplit := split_stages_single _ hstr hpipe hne hargs hrest hend
  have hp : process_command fs env command =
      dispatch fs env ((List.replicate MAX_COMMANDS Command.zero).set 0
        (scan_tokens (tokens (expand_spec env command)) Stage.empty).toCommand) 1 := by
    unfold process_command
    rw [hnb, hexp]
    simp only [hsplit, Bool.false_eq_true, if_false]
  rw [hp]
  exact dispatch_set_stage fs env _ operands hscan

theorem set_builtin_effect_witness :
    ((["A".toList, "v".toList, "C".toList] : List CStr).length < 2 →
      process_command all_files [⟨['B'], ['v']⟩] "set A $B C &".toList =
        .ok ([⟨['B'], ['v']⟩], .set)) ∧
    (∀ name value rest, ["A".toList, "v".toList, "C".toList] = name :: value :: rest →
      process_command all_files [⟨['B'], ['v']⟩] "set A $B C &".toList =
        .ok (set_env_var [⟨['B'], ['v']⟩] name value, .set)) :=
  set_builtin_effect all_files [⟨['B'], ['v']⟩] "set A $B C &".toList
    ["A".toList, "v".toList, "C".toList]
    (by decide) (by decide) (by decide) (by decide) (by decide) (by decide) (by decide)
    (by decide)

/-- C10: in a store with pairwise distinct names, `unset_env_var` leaves the
lookup of every other name unchanged and keeps the remaining entries in
their order (the result is the store without the entry of that name, a
sublist of it); the count drops by one when the name was stored, and the
store is unchanged when it was not. -/
theorem unset_frame (env : Env) (name : CStr) (hnd : (env.map (·.name)).Nodup) :
    (∀ other, other ≠ name →
      get_env_var (unset_env_var env name) other = get_env_var env other) ∧
    unset_env_var env name = env.filter (fun e => e.name ≠ name) ∧
    (unset_env_var env name).Sublist env ∧
    ((∃ e ∈ env, e.name = name) → (unset_env_var env name).length + 1 = env.length) ∧
    ((∀ e ∈ env, e.name ≠ name) → unset_env_var env name = env) := by
  refine ⟨fun other h => get_unset_other env name other h, unset_eq_filter env name hnd, ?_,
    unset_length env name, unset_absent env name⟩
  rw [unset_eq_filter env name hnd]
  exact List.filter_sublist _

theorem unset_frame_witness :
    (∀ other, other ≠ ['B'] →
      get_env_var (unset_env_var [⟨['A'], ['1']⟩, ⟨['B'], ['2']⟩, ⟨['C'], ['3']⟩] ['B']) other =
        get_env_var [⟨['A'], ['1']⟩, ⟨['B'], ['2']⟩, ⟨['C'], ['3']⟩] other) ∧
    unset_env_var [⟨['A'], ['1']⟩, ⟨['B'], ['2']⟩, ⟨['C'], ['3']⟩] ['B'] =
      ([⟨['A'], ['1']⟩, ⟨['B'], ['2']⟩, ⟨['C'], ['3']⟩] : Env).filter (fun e => e.name ≠ ['B']) ∧
    (unset_env_var [⟨['A'], ['1']⟩, ⟨['B'], ['2']⟩, ⟨['C'], ['3']⟩] ['B']).Sublist
      [⟨['A'], ['1']⟩, ⟨['B'], ['2']⟩, ⟨['C'], ['3']⟩] ∧
    ((∃ e ∈ ([⟨['A'], ['1']⟩, ⟨['B'], ['2']⟩, ⟨['C'], ['3']⟩] : Env), e.name = ['B']) →
      (unset_env_var [⟨['A'], ['1']⟩, ⟨['B'], ['2']⟩, ⟨['C'], ['3']⟩] ['B']).length + 1 =
        ([⟨['A'], ['1']⟩, ⟨['B'], ['2']⟩, ⟨['C'], ['3']⟩] : Env).length) ∧
    ((∀ e ∈ ([⟨['A'], ['1']⟩, ⟨['B'], ['2']⟩, ⟨['C'], ['3']⟩] : Env), e.name ≠ ['B']) →
      unset_env_var [⟨['A'], ['1']⟩, ⟨['B'], ['2']⟩, ⟨['C'], ['3']⟩] ['B'] =
        [⟨['A'], ['1']⟩, ⟨['B'], ['2']⟩, ⟨['C'], ['3']⟩]) :=
  unset_frame [⟨['A'], ['1']⟩, ⟨['B'], ['2']⟩, ⟨['C'], ['3']⟩] ['B'] (by decide)

end Xsh
